import Mathlib

/-!
# Verification of the duplicate-detection / pool-building subsystem

Shallow embedding of the duplicate/near-duplicate detection, uniqueness
ranking, candidate-pool building and persistent-archive logic of the
`scripts/` directory (`post_tweets.py`, `post_to_x.py`,
`generate_tweets.py`), together with theorems settling the frozen claims
about this subsystem.

Texts are modelled as `List Char` (Lean 4.14 `String` is a wrapper around
`List Char`, so `String.data` moves between the two).  Python `float`
arithmetic on similarity scores is modelled exactly over `ℚ`; the standard
library pieces the scripts use (`str.lower`, `str.strip`, `str.split`,
`re.sub`/`re.findall` for the three fixed patterns, `urllib.parse.urlparse`,
`difflib.SequenceMatcher.ratio`) are embedded for the ASCII texts the
scripts operate on, `SequenceMatcher` including its default autojunk
heuristic (the popularity purge of the `b2j` table, active only when the
second sequence has at least 200 elements) and the post-DP extension loops.
-/

set_option maxRecDepth 400000


/-! ## Python string primitives -/

/-- Python whitespace test (`str.split()` / `str.strip()` class), ASCII part:
space, tab, newline, carriage return, vertical tab, form feed. -/
def isPySpace (c : Char) : Bool :=
  c.toNat = 32 || c.toNat = 9 || c.toNat = 10 || c.toNat = 13 ||
  c.toNat = 11 || c.toNat = 12

/-- Python `\w` word-character class (`re` with ASCII text): letters, digits,
underscore. -/
def isWordChar (c : Char) : Bool :=
  (48 ≤ c.toNat && c.toNat ≤ 57) || (65 ≤ c.toNat && c.toNat ≤ 90) ||
  (97 ≤ c.toNat && c.toNat ≤ 122) || c.toNat = 95

/-- Python `\d` digit class. -/
def isDigitChar (c : Char) : Bool :=
  48 ≤ c.toNat && c.toNat ≤ 57

/-- Python `str.lower` on one character (ASCII part): `'A'..'Z'` map to
`'a'..'z'`, everything else is fixed. -/
def pyToLower (c : Char) : Char :=
  if 65 ≤ c.toNat ∧ c.toNat ≤ 90 then Char.ofNat (c.toNat + 32) else c

/-- Left strip: drop leading Python whitespace. -/
def trimLeft (cs : List Char) : List Char :=
  cs.dropWhile isPySpace

/-- Right strip: drop trailing Python whitespace. -/
def trimRight (cs : List Char) : List Char :=
  ((cs.reverse).dropWhile isPySpace).reverse

/-- Python `str.strip()`. -/
def pyStrip (cs : List Char) : List Char :=
  trimRight (trimLeft cs)

/-- One step of Python `str.split()`: next word and remainder. -/
def pySplitGo (fuel : Nat) (cs : List Char) : List (List Char) :=
  match fuel with
  | 0 => []
  | fuel + 1 =>
    match cs.dropWhile isPySpace with
    | [] => []
    | c :: rest =>
      ((c :: rest).takeWhile (fun d => !isPySpace d)) ::
        pySplitGo fuel ((c :: rest).dropWhile (fun d => !isPySpace d))

/-- Python `str.split()` (no argument): whitespace-delimited words, empty
words discarded.  The fuel `cs.length` is sufficient because every round
consumes at least one character. -/
def pySplit (cs : List Char) : List (List Char) :=
  pySplitGo cs.length cs

/-- Python `' '.join(ws)`. -/
def joinSpace (ws : List (List Char)) : List Char :=
  List.intercalate [' '] ws

/-- Does `hay` start with `needle`? -/
def startsWithL (needle hay : List Char) : Bool :=
  match needle, hay with
  | [], _ => true
  | _ :: _, [] => false
  | n :: ns, h :: hs => n = h && startsWithL ns hs

/-- Python substring containment `needle in hay`. -/
def containsSubstrL (needle : List Char) (hay : List Char) : Bool :=
  startsWithL needle hay ||
    match hay with
    | [] => false
    | _ :: t => containsSubstrL needle t

/-- Suffix of `hay` after the first occurrence of `needle`
(Python `hay.split(needle, 1)[1]`); `[]` when there is no occurrence. -/
def afterFirst (needle : List Char) (hay : List Char) : List Char :=
  if startsWithL needle hay then hay.drop needle.length
  else
    match hay with
    | [] => []
    | _ :: t => afterFirst needle t

/-! ## The three removal patterns of `normalize_text`

`re.sub(r'https?://\S+', '', ...)`, `re.sub(r'#\w+', '', ...)` and
`re.sub(r'\[\d{2}:\d{2}:\d{2}\]', '', ...)`, each with Python's
leftmost-longest non-overlapping scan. -/

/-- Remainder after a `https?://\S+` match starting exactly here, if any. -/
def urlRest (cs : List Char) : Option (List Char) :=
  if startsWithL ('h' :: 't' :: 't' :: 'p' :: 's' :: ':' :: '/' :: '/' :: []) cs then
    match (cs.drop 8).takeWhile (fun c => !isPySpace c) with
    | [] => none
    | _ :: _ => some ((cs.drop 8).dropWhile (fun c => !isPySpace c))
  else if startsWithL ('h' :: 't' :: 't' :: 'p' :: ':' :: '/' :: '/' :: []) cs then
    match (cs.drop 7).takeWhile (fun c => !isPySpace c) with
    | [] => none
    | _ :: _ => some ((cs.drop 7).dropWhile (fun c => !isPySpace c))
  else none

/-- Scan of `re.sub(r'https?://\S+', '', ·)`; a match always consumes at
least one character, so fuel `cs.length` is sufficient. -/
def removeURLsGo (fuel : Nat) (cs : List Char) : List Char :=
  match fuel with
  | 0 => cs
  | fuel + 1 =>
    match cs with
    | [] => []
    | c :: t =>
      match urlRest (c :: t) with
      | some rest => removeURLsGo fuel rest
      | none => c :: removeURLsGo fuel t

/-- `re.sub(r'https?://\S+', '', cs)`. -/
def removeURLs (cs : List Char) : List Char :=
  removeURLsGo cs.length cs

/-- Is there a `https?://\S+` match anywhere in `cs`? -/
def hasURLMatch (cs : List Char) : Bool :=
  (urlRest cs).isSome ||
    match cs with
    | [] => false
    | _ :: t => hasURLMatch t

/-- Remainder after a `#\w+` match starting exactly here, if any. -/
def tagRest (cs : List Char) : Option (List Char) :=
  match cs with
  | '#' :: t =>
    match t.takeWhile isWordChar with
    | [] => none
    | _ :: _ => some (t.dropWhile isWordChar)
  | _ => none

/-- Scan of `re.sub(r'#\w+', '', ·)`. -/
def removeHashtagsGo (fuel : Nat) (cs : List Char) : List Char :=
  match fuel with
  | 0 => cs
  | fuel + 1 =>
    match cs with
    | [] => []
    | c :: t =>
      match tagRest (c :: t) with
      | some rest => removeHashtagsGo fuel rest
      | none => c :: removeHashtagsGo fuel t

/-- `re.sub(r'#\w+', '', cs)`. -/
def removeHashtags (cs : List Char) : List Char :=
  removeHashtagsGo cs.length cs

/-- Is there a `#\w+` match anywhere in `cs`? -/
def hasTagMatch (cs : List Char) : Bool :=
  (tagRest cs).isSome ||
    match cs with
    | [] => false
    | _ :: t => hasTagMatch t

/-- Remainder after a `\[\d{2}:\d{2}:\d{2}\]` match starting exactly here. -/
def tsRest (cs : List Char) : Option (List Char) :=
  match cs with
  | '[' :: a :: b :: ':' :: c :: d :: ':' :: e :: f :: ']' :: rest =>
    if isDigitChar a && isDigitChar b && isDigitChar c && isDigitChar d &&
       isDigitChar e && isDigitChar f then some rest else none
  | _ => none

/-- Scan of `re.sub(r'\[\d{2}:\d{2}:\d{2}\]', '', ·)`. -/
def removeTimestampsGo (fuel : Nat) (cs : List Char) : List Char :=
  match fuel with
  | 0 => cs
  | fuel + 1 =>
    match cs with
    | [] => []
    | c :: t =>
      match tsRest (c :: t) with
      | some rest => removeTimestampsGo fuel rest
      | none => c :: removeTimestampsGo fuel t

/-- `re.sub(r'\[\d{2}:\d{2}:\d{2}\]', '', cs)`. -/
def removeTimestamps (cs : List Char) : List Char :=
  removeTimestampsGo cs.length cs

/-- Is there a `\[\d{2}:\d{2}:\d{2}\]` match anywhere in `cs`? -/
def hasTsMatch (cs : List Char) : Bool :=
  (tsRest cs).isSome ||
    match cs with
    | [] => false
    | _ :: t => hasTsMatch t

/-- The `'] '` delimiter. -/
def brSp : List Char := [']', ' ']

/-! ## Text normalization

`normalize_text` as defined identically inside
`post_tweets.py::is_similar_to_existing` (lines 308-319),
`post_tweets.py::save_used_tweet_ids` (lines 506-517) and
`post_to_x.py::is_similar_to_existing` (lines 279-290):
drop everything through the first `'] '`, remove URLs, hashtags and
bracketed `HH:MM:SS` timestamps, lowercase, strip. -/

def normalizeTextL (cs : List Char) : List Char :=
  pyStrip ((removeTimestamps (removeHashtags (removeURLs
    (if containsSubstrL brSp cs then afterFirst brSp cs else cs)))).map pyToLower)

/-- `normalize_text` on `String`s. -/
def normalizeText (s : String) : String :=
  String.mk (normalizeTextL s.data)

/-- The simpler `normalize_text` of `generate_tweets.py` (lines 837-843 in
`check_tweet_uniqueness`, and lines 1089-1092 / `post_tweets.py` lines
1205-1208 in the uniqueness rankers): remove URLs and hashtags, lowercase,
strip — no `'] '` or timestamp handling. -/
def normalizeSimpleL (cs : List Char) : List Char :=
  pyStrip ((removeHashtags (removeURLs cs)).map pyToLower)

/-! ## `difflib.SequenceMatcher` (Ratcliff/Obershelp)

Faithful embedding of CPython's `SequenceMatcher(None, a, b).ratio()`:
`__chain_b` builds the `b2j` position table and, under the default
`autojunk=True`, purges characters that occur more than `len(b)//100 + 1`
times when `len(b) >= 200`; `find_longest_match` is the row dynamic
program over the purged table followed by the two non-junk extension
loops (`isjunk=None` leaves `bjunk` empty, so the two trailing
junk-extension loops never fire); `get_matching_blocks` recurses on both
sides of the longest block, and `ratio` is `2*M/T`. -/

/-- Inner loop of `find_longest_match`, one row `i`: walk the ascending
list `js` of positions of `a[i]` in `b` (skipping positions outside
`[blo, bhi)`), building the new run-length map and updating the best
block.  `old j` is the run length ending at `(i-1, j)` from the previous
row (`j2len.get(j-1, 0)` in the source, hence the `j = 0` guard). -/
def flmRow (old : Nat → Nat) (i : Nat) (blo bhi : Nat) :
    List Nat → (Nat → Nat) → Nat × Nat × Nat → (Nat → Nat) × (Nat × Nat × Nat)
  | [], new, best => (new, best)
  | j :: js, new, best =>
    if blo ≤ j ∧ j < bhi then
      let k := (if j = 0 then 0 else old (j - 1)) + 1
      let new2 := fun x => if x = j then k else new x
      let best2 := if best.2.2 < k then (i + 1 - k, j + 1 - k, k) else best
      flmRow old i blo bhi js new2 best2
    else
      flmRow old i blo bhi js new best

/-- Positions of character `c` in `b` (the raw `b2j` table built by the
first loop of `__chain_b`). -/
def b2j (b : List Char) (c : Char) : List Nat :=
  (List.range b.length).filter (fun j => b.get? j = some c)

/-- The `b2j` table after `__chain_b`'s autojunk purge (default
`autojunk=True`): when `len(b) >= 200`, characters whose position list is
longer than `ntest = len(b)//100 + 1` are popular and deleted from the
table (`isjunk=None`, so the earlier junk purge removes nothing). -/
def b2jAuto (b : List Char) (c : Char) : List Nat :=
  if 200 ≤ b.length ∧ b.length / 100 + 1 < (b2j b c).length then []
  else b2j b c

/-- Outer loop of `find_longest_match` over the rows `is`. -/
def flmGo (a b : List Char) (blo bhi : Nat) :
    List Nat → (Nat → Nat) → Nat × Nat × Nat → Nat × Nat × Nat
  | [], _, best => best
  | i :: is', j2len, best =>
    match a.get? i with
    | none => flmGo a b blo bhi is' j2len best
    | some c =>
      let st := flmRow j2len i blo bhi (b2jAuto b c) (fun _ => 0) best
      flmGo a b blo bhi is' st.1 st.2

/-- First extension loop after the dynamic program: `while besti > alo and
bestj > blo and not isbjunk(b[bestj-1]) and a[besti-1] == b[bestj-1]`,
with `isjunk=None` making `bjunk` empty, so `not isbjunk(...)` is always
true.  `best` is `(besti, bestj, bestsize)`; the fuel bounds the loop. -/
def extendLeft (a b : List Char) (alo blo : Nat) :
    Nat → Nat × Nat × Nat → Nat × Nat × Nat
  | 0, best => best
  | fuel + 1, best =>
    if alo < best.1 ∧ blo < best.2.1 ∧
        a.get? (best.1 - 1) = b.get? (best.2.1 - 1) then
      extendLeft a b alo blo fuel (best.1 - 1, best.2.1 - 1, best.2.2 + 1)
    else best

/-- Second extension loop: `while besti+bestsize < ahi and bestj+bestsize
< bhi and not isbjunk(b[bestj+bestsize]) and a[besti+bestsize] ==
b[bestj+bestsize]`.  The two trailing junk-extension loops of the source
never fire (`bjunk` is empty) and are omitted. -/
def extendRight (a b : List Char) (ahi bhi : Nat) :
    Nat → Nat × Nat × Nat → Nat × Nat × Nat
  | 0, best => best
  | fuel + 1, best =>
    if best.1 + best.2.2 < ahi ∧ best.2.1 + best.2.2 < bhi ∧
        a.get? (best.1 + best.2.2) = b.get? (best.2.1 + best.2.2) then
      extendRight a b ahi bhi fuel (best.1, best.2.1, best.2.2 + 1)
    else best

/-- `SequenceMatcher.find_longest_match(alo, ahi, blo, bhi)`: dynamic
program over the purged table, then the two non-junk extension loops
(each can run at most `ahi` times, so fuel `ahi` suffices). -/
def findLongestMatch (a b : List Char) (alo ahi blo bhi : Nat) : Nat × Nat × Nat :=
  extendRight a b ahi bhi ahi
    (extendLeft a b alo blo ahi
      (flmGo a b blo bhi (List.range' alo (ahi - alo)) (fun _ => 0) (alo, blo, 0)))

/-- Total size of the matching blocks of `get_matching_blocks` restricted to
`a[alo:ahi]` / `b[blo:bhi]`: recurse on both sides of the longest match.
Each recursive call strictly shrinks `ahi - alo`, so fuel
`a.length + b.length` is sufficient at the top call. -/
def matchingSize (fuel : Nat) (a b : List Char) (alo ahi blo bhi : Nat) : Nat :=
  match fuel with
  | 0 => 0
  | fuel + 1 =>
    let m := findLongestMatch a b alo ahi blo bhi
    if m.2.2 = 0 then 0
    else
      matchingSize fuel a b alo m.1 blo m.2.1 + m.2.2 +
        matchingSize fuel a b (m.1 + m.2.2) ahi (m.2.1 + m.2.2) bhi

/-- `sum(triple.size for triple in sm.get_matching_blocks())`. -/
def totalMatched (a b : List Char) : Nat :=
  matchingSize (a.length + b.length) a b 0 a.length 0 b.length

/-- `SequenceMatcher(None, a, b).ratio()`, exactly over `ℚ`. -/
def ratioL (a b : List Char) : ℚ :=
  if a.length + b.length = 0 then 1
  else (2 * totalMatched a b : ℚ) / ((a.length : ℚ) + (b.length : ℚ))

/-! ## Word-set (Jaccard) similarity

Lines 407-415 of `post_tweets.py` (identically 378-386 of `post_to_x.py`):
`set(x.split())` intersection over union, `0` if either set is empty. -/

/-- Jaccard similarity of the word sets of two already-split texts. -/
def jaccardWords (ws1 ws2 : List (List Char)) : ℚ :=
  if ws1 ≠ [] ∧ ws2 ≠ [] then
    let d1 := ws1.dedup
    let d2 := ws2.dedup
    let inter := d1.filter (fun w => w ∈ d2)
    let union := (ws1 ++ ws2).dedup
    if union ≠ [] then (inter.length : ℚ) / (union.length : ℚ) else 0
  else 0

/-! ## URL extraction and `urllib.parse.urlparse`

`re.findall(r'https?://\S+', ...)` plus the `netloc`/`path` components of
`urlparse` for the scheme-ful URLs that the findall pattern produces
(`netloc` runs to the first `/`, `?` or `#`; `path` from there to the
first `?` or `#`; the rarely-used `;params` split is not modelled). -/

/-- A `https?://\S+` match starting exactly here: the matched chunk and the
remainder. -/
def urlMatchChunk (cs : List Char) : Option (List Char × List Char) :=
  if startsWithL ("https://".data) cs then
    match (cs.drop 8).takeWhile (fun c => !isPySpace c) with
    | [] => none
    | run => some (cs.take 8 ++ run, (cs.drop 8).dropWhile (fun c => !isPySpace c))
  else if startsWithL ("http://".data) cs then
    match (cs.drop 7).takeWhile (fun c => !isPySpace c) with
    | [] => none
    | run => some (cs.take 7 ++ run, (cs.drop 7).dropWhile (fun c => !isPySpace c))
  else none

/-- Scan of `re.findall(r'https?://\S+', cs)`. -/
def findallURLsGo (fuel : Nat) (cs : List Char) : List (List Char) :=
  match fuel with
  | 0 => []
  | fuel + 1 =>
    match cs with
    | [] => []
    | c :: t =>
      match urlMatchChunk (c :: t) with
      | some m => m.1 :: findallURLsGo fuel m.2
      | none => findallURLsGo fuel t

/-- `re.findall(r'https?://\S+', cs)`. -/
def findallURLs (cs : List Char) : List (List Char) :=
  findallURLsGo cs.length cs

/-- Drop the recognized scheme of a findall-produced URL. -/
def afterScheme (u : List Char) : List Char :=
  if startsWithL ("https://".data) u then u.drop 8
  else if startsWithL ("http://".data) u then u.drop 7
  else u

/-- `urlparse(u).netloc`. -/
def netlocOf (u : List Char) : List Char :=
  (afterScheme u).takeWhile (fun c => !(c = '/' || c = '?' || c = '#'))

/-- `urlparse(u).path`. -/
def pathOf (u : List Char) : List Char :=
  ((afterScheme u).dropWhile (fun c => !(c = '/' || c = '?' || c = '#'))).takeWhile
    (fun c => !(c = '?' || c = '#'))

/-! ## The duplicate classifier of the posting scripts

`is_similar_to_existing(tweet, existing_tweets, similarity_threshold)`,
`post_tweets.py` lines 291-455 and (verbatim-identical) `post_to_x.py`
lines 262-426. -/

/-- The URL-collision shortcut (lines 321-366 of `post_tweets.py`): some
reference URL whose domain equals the domain of SOME candidate URL and
whose path equals the path of SOME candidate URL forces an immediate
duplicate classification. -/
def urlCollision (tweet : List Char) (existingTweets : List String) : Bool :=
  let urls := findallURLs tweet
  let domains := (urls.map netlocOf).filter (fun d => d ≠ [])
  if urls ≠ [] ∧ domains ≠ [] then
    existingTweets.any (fun e =>
      (findallURLs e.data).any (fun v =>
        decide (netlocOf v ∈ domains) && urls.any (fun u => pathOf u = pathOf v)))
  else false

/-- `beginning_similarity` against one reference (lines 386-394): ratio of
the joined first-five-word phrases, computed only when both texts have at
least 3 leading words, else `0`.  `ws` is the candidate's word list, `bp`
its joined first-five-words phrase. -/
def begOf (ws : List (List Char)) (bp : List Char) (e : String) : ℚ :=
  if 3 ≤ (ws.take 5).length ∧ 3 ≤ ((pySplit (normalizeTextL e.data)).take 5).length
  then ratioL bp (joinSpace ((pySplit (normalizeTextL e.data)).take 5))
  else 0

/-- `full_similarity` (line 405): ratio of the two normalized texts. -/
def fullOf (nt : List Char) (e : String) : ℚ :=
  ratioL nt (normalizeTextL e.data)

/-- `word_similarity` (lines 407-415): Jaccard similarity of the word
sets. -/
def wordOf (ws : List (List Char)) (e : String) : ℚ :=
  jaccardWords ws (pySplit (normalizeTextL e.data))

/-- `combined_score` (line 418): `full*0.5 + beginning*0.3 + word*0.2`. -/
def combinedOf (nt : List Char) (ws : List (List Char)) (bp : List Char)
    (e : String) : ℚ :=
  fullOf nt e * ((1:ℚ)/2) + begOf ws bp e * ((3:ℚ)/10) + wordOf ws e * ((1:ℚ)/5)

/-- `adjusted_threshold` (lines 422-425): lowered by `beginning - 0.7`
when `beginning >= 0.7`, floored at `0.5`. -/
def adjustedOf (threshold beg : ℚ) : ℚ :=
  if (7:ℚ)/10 ≤ beg then max ((1:ℚ)/2) (threshold - (beg - (7:ℚ)/10)) else threshold

/-- Per-reference duplicate decision of the main loop (lines 379-451):
skip short references, escalate on near-identical beginnings
(`beginning >= 0.9`), then the three classification rules.  `nt` is the
normalized candidate, `ws` its word list, `bp` its joined first-five-words
phrase. -/
def perRefDuplicate (nt : List Char) (ws : List (List Char)) (bp : List Char)
    (threshold : ℚ) (e : String) : Bool :=
  if (normalizeTextL e.data).length < 20 then false
  else if (9:ℚ)/10 ≤ begOf ws bp e then true
  else if (9:ℚ)/10 ≤ fullOf nt e then true
  else if adjustedOf threshold (begOf ws bp e) ≤ combinedOf nt ws bp e ∧
      (1:ℚ)/2 ≤ begOf ws bp e then true
  else if (4:ℚ)/5 ≤ wordOf ws e ∧ (1:ℚ)/2 ≤ begOf ws bp e then true
  else false

/-- `post_tweets.py::is_similar_to_existing` (lines 291-455).  Returns
`true` when the candidate is classified a duplicate of some reference
text. -/
def isSimilarToExisting (tweet : String) (existingTweets : List String)
    (threshold : ℚ) : Bool :=
  if existingTweets = [] then false
  else if urlCollision tweet.data existingTweets then true
  else if (normalizeTextL tweet.data).length < 20 then false
  else existingTweets.any (perRefDuplicate (normalizeTextL tweet.data)
    (pySplit (normalizeTextL tweet.data))
    (joinSpace ((pySplit (normalizeTextL tweet.data)).take 5)) threshold)

/-- `post_to_x.py::is_similar_to_existing` (lines 262-426), which is
textually identical to the `post_tweets.py` copy. -/
def isSimilarToExistingX (tweet : String) (existingTweets : List String)
    (threshold : ℚ) : Bool :=
  if existingTweets = [] then false
  else if urlCollision tweet.data existingTweets then true
  else if (normalizeTextL tweet.data).length < 20 then false
  else existingTweets.any (perRefDuplicate (normalizeTextL tweet.data)
    (pySplit (normalizeTextL tweet.data))
    (joinSpace ((pySplit (normalizeTextL tweet.data)).take 5)) threshold)

/-! ## The uniqueness check of the generation script

`generate_tweets.py::check_tweet_uniqueness` (lines 827-875).  Returns
`true` when the tweet is unique (NOT similar), the opposite polarity of
`is_similar_to_existing`. -/

def checkTweetUniqueness (newTweet : String) (existingTweets : List String)
    (threshold : ℚ) : Bool :=
  if newTweet = "" ∨ existingTweets = [] then true
  else
    let nn := normalizeSimpleL newTweet.data
    let nws := (pySplit nn).take 4
    if nws.length < 3 then true
    else
      let nb := joinSpace nws
      !(existingTweets.any (fun e =>
          let ne := normalizeSimpleL e.data
          let ews := (pySplit ne).take 4
          if 3 ≤ ews.length then
            (nb = joinSpace ews) || (threshold ≤ ratioL nn ne)
          else false))

/-! ## The candidate-pool building loop

`generate_tweets.py::generate_tweets`, lines 1006-1073: repeatedly draw a
candidate (weighted-random generator selection, generation failures and
"no unused article" skips are all folded into one oracle
`gen : Nat → Option String`, consulted once per attempt), and admit it to
the pool when it is non-empty, not already in the pool as an exact string,
and passes `check_tweet_uniqueness` against the fixed pre-loop reference
corpus (`all_tweets_for_comparison`) at the default threshold `0.6`. -/

/-- State of the `while` loop: the pool built so far and the number of
attempts consumed. -/
structure PoolState where
  pool : List String
  attempts : Nat
  deriving DecidableEq, Repr

/-- One iteration of the loop (`while len(pool) < size and attempts < size*3`).
When the guard fails the state is returned unchanged. -/
def poolStep (corpus : List String) (target : Nat) (gen : Nat → Option String)
    (s : PoolState) : PoolState :=
  if s.pool.length < target ∧ s.attempts < target * 3 then
    match gen s.attempts with
    | none => ⟨s.pool, s.attempts + 1⟩
    | some t =>
      if t ∉ s.pool ∧ checkTweetUniqueness t corpus ((3:ℚ)/5) = true then
        ⟨s.pool ++ [t], s.attempts + 1⟩
      else ⟨s.pool, s.attempts + 1⟩
  else s

/-- The loop after `n` iterations, from the empty initial state. -/
def runPool (corpus : List String) (target : Nat) (gen : Nat → Option String) :
    Nat → PoolState
  | 0 => ⟨[], 0⟩
  | n + 1 => poolStep corpus target gen (runPool corpus target gen n)

/-! ## The uniqueness ranker

`generate_tweets.py` lines 1076-1111 (and the index-based replica in
`post_tweets.py::main`, lines 1186-1226): for each pool member, average the
`SequenceMatcher` full-text similarity of its simple-normalized form
against every other member, convert to `1 - average`, sort descending. -/

/-- The accumulation loop of the ranker: running `total_similarity` and
`comparisons` over every index other than `i`. -/
def simAccum (t : List Char) (i : Nat) (pool : List String) : ℚ × Nat :=
  pool.enum.foldl
    (fun (ac : ℚ × Nat) p =>
      if p.1 = i then ac
      else (ac.1 + ratioL t (normalizeSimpleL p.2.data), ac.2 + 1))
    (0, 0)

/-- The uniqueness score of member `i` of the pool: the loop accumulates
`total_similarity` and `comparisons` over every other index, then takes
`1 - total/comparisons` (`0` average when there is nothing to compare). -/
def uniquenessScore (pool : List String) (i : Nat) : ℚ :=
  1 - (if 0 < (simAccum (normalizeSimpleL (pool.getD i "").data) i pool).2
       then (simAccum (normalizeSimpleL (pool.getD i "").data) i pool).1 /
         ((simAccum (normalizeSimpleL (pool.getD i "").data) i pool).2 : ℚ)
       else 0)

/-- The scored pool in construction order:
`tweet_uniqueness_scores.append((uniqueness_score, tweet))`. -/
def scoredPool (pool : List String) : List (ℚ × String) :=
  pool.enum.map (fun p => (uniquenessScore pool p.1, p.2))

/-- The comparison `tweet_uniqueness_scores.sort(reverse=True)` sorts
descending by the Python tuple order: score first, tweet text second. -/
def rankLe (p q : ℚ × String) : Prop :=
  q.1 < p.1 ∨ (p.1 = q.1 ∧ q.2 ≤ p.2)

instance : DecidableRel rankLe := fun p q => by
  unfold rankLe; infer_instance

/-- `tweet_uniqueness_scores` after the descending sort. -/
def rankPool (pool : List String) : List (ℚ × String) :=
  List.insertionSort rankLe (scoredPool pool)

/-! ## The posting loop and the persistent archive

`post_tweets.py::main` lines 1264-1301 (the per-tweet posting loop and the
"only archive what was posted" gate) and
`post_tweets.py::save_used_tweet_ids` lines 488-566 (append with the
`full >= 0.9` pre-write re-check), with
`post_tweets.py::load_recently_posted_tweets` STEP 1 (lines 166-190) as the
archive reader.  The archive is modelled as the list of its `---`-separated
entries; `datetime.now()` is an explicit `ts` parameter. -/

/-- The archive entry written for tweet `t`:
`f"[{timestamp}] {tweet}"` (the `\n---\n` record separator is the list
structure). -/
def mkEntry (ts t : String) : String :=
  "[" ++ ts ++ "] " ++ t

/-- The posting loop over `(index, tweet)` pairs: attempt each one; record
index and text on success; a failure only skips that item. -/
def postLoop (success : Nat → String → Bool) (items : List (Nat × String)) :
    List Nat × List String :=
  items.foldl
    (fun ac p => if success p.1 p.2 then (ac.1 ++ [p.1], ac.2 ++ [p.2]) else ac)
    ([], [])

/-- The inner append loop of `save_used_tweet_ids` (lines 524-565): walk the
new tweets keeping the running `normalized_existing` list; texts whose
normalized form is shorter than 20 characters are appended without any
check (and not added to `normalized_existing`); otherwise the text is
skipped when some (long-enough) normalized existing entry has
`SequenceMatcher` ratio `>= 0.9` against it, else appended and its
normalized form joins `normalized_existing`. -/
def appendGo (ts : String) (normExisting : List (List Char)) :
    List String → List String
  | [] => []
  | t :: rest =>
    if (normalizeTextL t.data).length < 20 then mkEntry ts t :: appendGo ts normExisting rest
    else if normExisting.any (fun e =>
        !(e.length < 20) && ((9:ℚ)/10 ≤ ratioL (normalizeTextL t.data) e)) then
      appendGo ts normExisting rest
    else mkEntry ts t :: appendGo ts (normExisting ++ [normalizeTextL t.data]) rest

/-- `save_used_tweet_ids`' archive append: load the existing entries,
normalize them, then run the append loop; the new archive is the old
entries followed by the newly written ones. -/
def appendBatch (existing : List String) (tweets : List String) (ts : String) :
    List String :=
  existing ++ appendGo ts (existing.map (fun e => normalizeTextL e.data)) tweets

/-- Payload extraction of the archive reader (lines 178-182): cut the
`'] '` timestamp prefix when present, then strip. -/
def payloadOf (e2 : String) : String :=
  if containsSubstrL brSp e2.data then String.mk (pyStrip (afterFirst brSp e2.data))
  else String.mk (pyStrip e2.data)

/-- One entry of the archive-reading loop (lines 177-185): skip pieces
that strip to nothing, extract the payload, keep it when non-empty and
not seen yet. -/
def readStep (acc : List String) (e : String) : List String :=
  if String.mk (pyStrip e.data) = "" then acc
  else
    if payloadOf (String.mk (pyStrip e.data)) ≠ "" ∧
        payloadOf (String.mk (pyStrip e.data)) ∉ acc then
      acc ++ [payloadOf (String.mk (pyStrip e.data))]
    else acc

/-- STEP 1 of `load_recently_posted_tweets` (lines 174-186): strip each
`---`-separated piece, drop empties, cut a `'] '` timestamp prefix, strip
again, and keep first occurrences only. -/
def readArchive (entries : List String) : List String :=
  entries.foldl readStep []

/-! ## Platform filtering and the `force` flag

`post_tweets.py::is_elon_musk_tweet` (lines 1012-1028) and the two
duplicate-check loops of `main` (lines 1149-1175 and 1244-1253). -/

/-- `is_elon_musk_tweet`: case-insensitive containment of one of the
keywords. -/
def isElonMuskTweet (t : String) : Bool :=
  ["elon".data, "musk".data, ("elon musk").data].any
    (fun k => containsSubstrL k (t.data.map pyToLower))

/-- The availability double-check loop (lines 1149-1175): platform filter
first, then the `force` bypass, then the content-based duplicate check. -/
def filterCandidates (p : String) (force : Bool) (tweets : List String)
    (available : List Nat) (recent : List String) (threshold : ℚ) : List Nat :=
  available.filter (fun idx =>
    let t := tweets.getD idx ""
    if p = "x" && isElonMuskTweet t then false
    else if force then true
    else !(isSimilarToExisting t recent threshold))

/-- The final pre-posting sanity check (lines 1244-1253):
`if not force and is_similar_to_existing(...): skip`. -/
def finalCheck (force : Bool) (tweets : List String) (recent : List String)
    (threshold : ℚ) (idxs : List Nat) : List Nat :=
  idxs.filter (fun idx =>
    force || !(isSimilarToExisting (tweets.getD idx "") recent threshold))

/-- The archive-update gate of `main` (lines 1293-1301):
`save_used_tweet_ids` (and hence the archive append) runs only when at
least one post succeeded, and receives exactly the successfully posted
texts. -/
def archiveAfterRun (archive : List String) (success : Nat → String → Bool)
    (items : List (Nat × String)) (ts : String) : List String :=
  if (postLoop success items).1 = [] then archive
  else appendBatch archive (postLoop success items).2 ts

/-! ## Helper lemmas -/

theorem poolStep_attempts (corpus : List String) (target : Nat)
    (gen : Nat → Option String) (s : PoolState) :
    (poolStep corpus target gen s).attempts =
      if s.pool.length < target ∧ s.attempts < target * 3 then s.attempts + 1
      else s.attempts := by
  by_cases h : s.pool.length < target ∧ s.attempts < target * 3
  · rw [if_pos h]
    unfold poolStep
    rw [if_pos h]
    cases gen s.attempts with
    | none => rfl
    | some t => dsimp only; split <;> rfl
  · rw [if_neg h]
    unfold poolStep
    rw [if_neg h]

theorem poolStep_fix {corpus : List String} {target : Nat}
    {gen : Nat → Option String} {s : PoolState}
    (h : ¬(s.pool.length < target ∧ s.attempts < target * 3)) :
    poolStep corpus target gen s = s := by
  unfold poolStep
  rw [if_neg h]

theorem runPool_attempts_or (corpus : List String) (target : Nat)
    (gen : Nat → Option String) : ∀ n : Nat,
    (runPool corpus target gen n).attempts = n ∨
      poolStep corpus target gen (runPool corpus target gen n) =
        runPool corpus target gen n := by
  intro n
  induction n with
  | zero => exact Or.inl rfl
  | succ n ih =>
    have hstep : runPool corpus target gen (n + 1) =
        poolStep corpus target gen (runPool corpus target gen n) := rfl
    rcases ih with h1 | h2
    · by_cases hg : (runPool corpus target gen n).pool.length < target ∧
          (runPool corpus target gen n).attempts < target * 3
      · left
        rw [hstep, poolStep_attempts, if_pos hg, h1]
      · right
        rw [hstep, poolStep_fix hg, poolStep_fix hg]
    · right
      rw [hstep, h2, h2]

theorem postLoop_texts (success : Nat → String → Bool) :
    ∀ (items : List (Nat × String)) (ac : List Nat × List String),
    (items.foldl
      (fun ac p => if success p.1 p.2 then (ac.1 ++ [p.1], ac.2 ++ [p.2]) else ac) ac).2 =
      ac.2 ++ (items.filter (fun p => success p.1 p.2)).map (fun p => p.2) := by
  intro items
  induction items with
  | nil => intro ac; simp
  | cons p rest ih =>
    intro ac
    rw [List.foldl_cons, List.filter_cons]
    by_cases h : success p.1 p.2
    · rw [if_pos h, ih]
      simp [h]
    · rw [if_neg h, ih]
      simp [h]

set_option maxHeartbeats 1000000 in
theorem mem_appendGo (ts : String) :
    ∀ (tweets : List String) (ne : List (List Char)) (e : String),
    e ∈ appendGo ts ne tweets → ∃ t ∈ tweets, e = mkEntry ts t := by
  intro tweets
  induction tweets with
  | nil => intro ne e h; exact absurd h (List.not_mem_nil e)
  | cons t rest ih =>
    intro ne e h
    unfold appendGo at h
    split at h
    · rcases List.mem_cons.mp h with h3 | h3
      · exact ⟨t, List.mem_cons_self t rest, h3⟩
      · obtain ⟨s, hs, he⟩ := ih ne e h3
        exact ⟨s, List.mem_cons_of_mem t hs, he⟩
    · split at h
      · obtain ⟨s, hs, he⟩ := ih ne e h
        exact ⟨s, List.mem_cons_of_mem t hs, he⟩
      · rcases List.mem_cons.mp h with h3 | h3
        · exact ⟨t, List.mem_cons_self t rest, h3⟩
        · obtain ⟨s, hs, he⟩ := ih (ne ++ [normalizeTextL t.data]) e h3
          exact ⟨s, List.mem_cons_of_mem t hs, he⟩

/-! ## Claim theorems -/

/-- C2 (amended): every reachable state of the pool-building loop has a
pool whose members are pairwise distinct as exact strings and were each
classified non-duplicate by `check_tweet_uniqueness` against the reference
corpus alone — the loop never re-runs the classifier against the
pool-so-far (that part of the original claim is refuted by
`C2_counterexample`). -/
theorem C2_pool_invariant_amended :
    ∀ (corpus : List String) (target : Nat) (gen : Nat → Option String) (n : Nat),
    (runPool corpus target gen n).pool.Nodup ∧
    ∀ t ∈ (runPool corpus target gen n).pool,
      checkTweetUniqueness t corpus ((3:ℚ)/5) = true := by
  intro corpus target gen n
  induction n with
  | zero => exact ⟨List.nodup_nil, by intro t ht; exact absurd ht (List.not_mem_nil t)⟩
  | succ n ih =>
    have hstep : runPool corpus target gen (n + 1) =
        poolStep corpus target gen (runPool corpus target gen n) := rfl
    rw [hstep]
    unfold poolStep
    by_cases hg : (runPool corpus target gen n).pool.length < target ∧
        (runPool corpus target gen n).attempts < target * 3
    · rw [if_pos hg]
      cases hgen : gen (runPool corpus target gen n).attempts with
      | none => exact ih
      | some t =>
        dsimp only
        by_cases hcond : t ∉ (runPool corpus target gen n).pool ∧
            checkTweetUniqueness t corpus ((3:ℚ)/5) = true
        · rw [if_pos hcond]
          refine ⟨?_, ?_⟩
          · refine List.Nodup.append ih.1 (List.nodup_singleton t) ?_
            intro a ha hb
            rw [List.mem_singleton.mp hb] at ha
            exact hcond.1 ha
          · intro x hx
            rcases List.mem_append.mp hx with h1 | h2
            · exact ih.2 x h1
            · rw [List.mem_singleton.mp h2]
              exact hcond.2
        · rw [if_neg hcond]
          exact ih
    · rw [if_neg hg]
      exact ih

/-- C5 (amended): the URL-collision shortcut fires exactly when some
reference URL's domain equals the domain of SOME candidate URL (with a
non-empty domain) and its path equals the path of SOME — possibly
different — candidate URL; whenever it fires, the candidate is classified
a duplicate immediately, for every threshold.  The original "sharing both
domain and exact path with a single candidate URL" reading is refuted by
`C5_counterexample`. -/
theorem C5_url_collision_amended :
    ∀ (tweet : String) (corpus : List String) (threshold : ℚ),
    (urlCollision tweet.data corpus = true ↔
      ∃ e ∈ corpus, ∃ v ∈ findallURLs e.data,
        netlocOf v ∈ ((findallURLs tweet.data).map netlocOf).filter (fun d => d ≠ []) ∧
        ∃ u ∈ findallURLs tweet.data, pathOf u = pathOf v) ∧
    (urlCollision tweet.data corpus = true →
      isSimilarToExisting tweet corpus threshold = true) := by
  intro tweet corpus threshold
  constructor
  · unfold urlCollision
    by_cases hg : findallURLs tweet.data ≠ [] ∧
        ((findallURLs tweet.data).map netlocOf).filter (fun d => d ≠ []) ≠ []
    · rw [if_pos hg]
      simp only [List.any_eq_true, Bool.and_eq_true, decide_eq_true_eq]
    · rw [if_neg hg]
      constructor
      · intro h
        exact absurd h (by simp)
      · rintro ⟨e, he, v, hv, hmem, u, hu, hpath⟩
        exfalso
        apply hg
        refine ⟨?_, ?_⟩
        · intro h0
          rw [h0] at hmem
          simp at hmem
        · intro h0
          rw [h0] at hmem
          simp at hmem
  · intro h
    unfold isSimilarToExisting
    have hc : corpus ≠ [] := by
      rintro rfl
      have hz : urlCollision tweet.data [] = false := by
        unfold urlCollision
        simp
      rw [hz] at h
      exact Bool.false_ne_true h
    rw [if_neg hc, if_pos h]

/-- C6: the pool-building loop performs at most `target * 3` attempts
(each consulting the generator at most once), is frozen from iteration
`target * 3` on, and with a generator whose every output fails the
uniqueness check it reaches, for every `k ≤ target * 3`, the state with
empty pool and exactly `k` consumed attempts — in particular the
EXHAUSTED state `⟨[], target * 3⟩` after exactly the budgeted number of
attempts. -/
theorem C6_pool_termination (corpus : List String) (target : Nat) :
    (∀ (gen : Nat → Option String) (n : Nat),
        (runPool corpus target gen n).attempts ≤ target * 3) ∧
    (∀ (gen : Nat → Option String) (n : Nat), target * 3 ≤ n →
        runPool corpus target gen n = runPool corpus target gen (target * 3)) ∧
    (∀ (gen : Nat → Option String),
        (∀ k t, gen k = some t → checkTweetUniqueness t corpus ((3:ℚ)/5) = false) →
        0 < target → ∀ k, k ≤ target * 3 →
        runPool corpus target gen k = ⟨[], k⟩) := by
  refine ⟨?_, ?_, ?_⟩
  · intro gen n
    induction n with
    | zero => exact Nat.zero_le _
    | succ n ih =>
      have hstep : runPool corpus target gen (n + 1) =
          poolStep corpus target gen (runPool corpus target gen n) := rfl
      rw [hstep, poolStep_attempts]
      split
      · rename_i hg
        omega
      · exact ih
  · intro gen n hn
    have hfix : poolStep corpus target gen (runPool corpus target gen (target * 3)) =
        runPool corpus target gen (target * 3) := by
      rcases runPool_attempts_or corpus target gen (target * 3) with h1 | h2
      · exact poolStep_fix (by omega)
      · exact h2
    induction n with
    | zero =>
      have h0 : target * 3 = 0 := Nat.le_zero.mp hn
      rw [h0]
    | succ n ih =>
      rcases Nat.lt_or_ge (target * 3) (n + 1) with hlt | hge
      · have hn2 : target * 3 ≤ n := by omega
        have hstep : runPool corpus target gen (n + 1) =
            poolStep corpus target gen (runPool corpus target gen n) := rfl
        rw [hstep, ih hn2, hfix]
      · have h1 : target * 3 = n + 1 := by omega
        rw [h1]
  · intro gen hdup htarget k
    induction k with
    | zero => intro _; rfl
    | succ k ih =>
      intro hk
      have hk2 : k ≤ target * 3 := by omega
      have hstep : runPool corpus target gen (k + 1) =
          poolStep corpus target gen (runPool corpus target gen k) := rfl
      rw [hstep, ih hk2]
      unfold poolStep
      rw [if_pos (by constructor <;> simp <;> omega)]
      cases hgen : gen k with
      | none => rfl
      | some t =>
        dsimp only
        rw [if_neg]
        rintro ⟨-, hchk⟩
        rw [hdup k t hgen] at hchk
        exact Bool.false_ne_true hchk

/-- C7: the posting loop records exactly the texts whose post attempt
succeeded (so a failed attempt skips only that item and every later
successful item is still posted), and every entry the run appends to the
archive is the timestamped entry of one of those successfully posted
texts. -/
theorem C7_archive_only_posted :
    ∀ (success : Nat → String → Bool) (items : List (Nat × String))
      (archive : List String) (ts : String),
    (postLoop success items).2 =
      (items.filter (fun p => success p.1 p.2)).map (fun p => p.2) ∧
    (∀ p ∈ items, success p.1 p.2 = true → p.2 ∈ (postLoop success items).2) ∧
    (∀ e ∈ archiveAfterRun archive success items ts,
      e ∈ archive ∨ ∃ t ∈ (postLoop success items).2, e = mkEntry ts t) := by
  intro success items archive ts
  have htexts : (postLoop success items).2 =
      (items.filter (fun p => success p.1 p.2)).map (fun p => p.2) := by
    unfold postLoop
    rw [postLoop_texts]
    simp
  refine ⟨htexts, ?_, ?_⟩
  · intro p hp hs
    rw [htexts]
    exact List.mem_map_of_mem _ (List.mem_filter.mpr ⟨hp, hs⟩)
  · intro e he
    unfold archiveAfterRun at he
    split_ifs at he with h1
    · exact Or.inl he
    · unfold appendBatch at he
      rcases List.mem_append.mp he with h2 | h2
      · exact Or.inl h2
      · obtain ⟨t, ht, hte⟩ := mem_appendGo ts _ _ e h2
        exact Or.inr ⟨t, ht, hte⟩

/-- C9 (amended): the duplicate classifiers of `post_tweets.py` and
`post_to_x.py` are extensionally identical, so consolidating THOSE two is
behavior-preserving; `generate_tweets.py::check_tweet_uniqueness` is NOT
equivalent to them (refuted by `C9_counterexample`), so folding it in
would change behavior. -/
theorem C9_posting_classifiers_identical :
    ∀ (tweet : String) (existingTweets : List String) (threshold : ℚ),
    isSimilarToExisting tweet existingTweets threshold =
      isSimilarToExistingX tweet existingTweets threshold := by
  intro t e th
  rfl

/-- C10: with the `force` flag set, the availability filter on platform
`x` reduces to exactly the Elon-Musk content filter — a matching candidate
is still excluded (the platform filter runs before the force shortcut),
every other candidate is kept with no similarity check consulted — and the
final pre-posting duplicate check passes everything through. -/
theorem C10_force_bypass :
    ∀ (tweets : List String) (available : List Nat)
      (recent : List String) (threshold : ℚ),
    filterCandidates "x" true tweets available recent threshold =
      available.filter (fun idx => !(isElonMuskTweet (tweets.getD idx ""))) ∧
    finalCheck true tweets recent threshold
        (filterCandidates "x" true tweets available recent threshold) =
      filterCandidates "x" true tweets available recent threshold := by
  intro tweets available recent th
  constructor
  · unfold filterCandidates
    apply List.filter_congr
    intro idx _
    by_cases h : isElonMuskTweet (tweets.getD idx "")
    · simp [h]
    · simp [h]
  · unfold finalCheck
    simp


theorem adjustedOf_mono {t1 t2 : ℚ} (h : t1 ≤ t2) (beg : ℚ) :
    adjustedOf t1 beg ≤ adjustedOf t2 beg := by
  unfold adjustedOf
  split
  · exact max_le_max le_rfl (sub_le_sub_right h _)
  · exact h

theorem perRefDuplicate_antitone {t1 t2 : ℚ} (h12 : t1 ≤ t2)
    (nt : List Char) (ws : List (List Char)) (bp : List Char) (e : String)
    (hd : perRefDuplicate nt ws bp t2 e = true) :
    perRefDuplicate nt ws bp t1 e = true := by
  unfold perRefDuplicate at hd ⊢
  by_cases h20 : (normalizeTextL e.data).length < 20
  · rw [if_pos h20] at hd
    cases hd
  · rw [if_neg h20] at hd ⊢
    by_cases hb : (9:ℚ)/10 ≤ begOf ws bp e
    · rw [if_pos hb]
    · rw [if_neg hb] at hd ⊢
      by_cases hf : (9:ℚ)/10 ≤ fullOf nt e
      · rw [if_pos hf]
      · rw [if_neg hf] at hd ⊢
        by_cases hc2 : adjustedOf t2 (begOf ws bp e) ≤ combinedOf nt ws bp e ∧
            (1:ℚ)/2 ≤ begOf ws bp e
        · have hc1 : adjustedOf t1 (begOf ws bp e) ≤ combinedOf nt ws bp e ∧
              (1:ℚ)/2 ≤ begOf ws bp e :=
            ⟨le_trans (adjustedOf_mono h12 _) hc2.1, hc2.2⟩
          rw [if_pos hc1]
        · rw [if_neg hc2] at hd
          by_cases hw : (4:ℚ)/5 ≤ wordOf ws e ∧ (1:ℚ)/2 ≤ begOf ws bp e
          · by_cases hc1 : adjustedOf t1 (begOf ws bp e) ≤ combinedOf nt ws bp e ∧
                (1:ℚ)/2 ≤ begOf ws bp e
            · rw [if_pos hc1]
            · rw [if_neg hc1, if_pos hw]
          · rw [if_neg hw] at hd
            cases hd

/-- C1 (amended): the duplicate classification of `is_similar_to_existing`
is antitone in the base threshold — LOWERING the threshold can only
produce more duplicate classifications: a candidate classified duplicate
at `t2` is classified duplicate at every `t1 ≤ t2`.  The original claim's
direction (raising the threshold preserves the combined-branch duplicate
classification) is refuted by `C1_counterexample`. -/
theorem C1_threshold_antitone :
    ∀ (tweet : String) (corpus : List String) (t1 t2 : ℚ), t1 ≤ t2 →
    isSimilarToExisting tweet corpus t2 = true →
    isSimilarToExisting tweet corpus t1 = true := by
  intro tweet corpus t1 t2 h12 h
  unfold isSimilarToExisting at h ⊢
  by_cases hc : corpus = []
  · rw [if_pos hc] at h
    cases h
  · rw [if_neg hc] at h ⊢
    by_cases hu : urlCollision tweet.data corpus = true
    · rw [if_pos hu]
    · rw [if_neg hu] at h ⊢
      by_cases h20 : (normalizeTextL tweet.data).length < 20
      · rw [if_pos h20] at h
        cases h
      · rw [if_neg h20] at h ⊢
        rw [List.any_eq_true] at h ⊢
        obtain ⟨e, he, hde⟩ := h
        exact ⟨e, he, perRefDuplicate_antitone h12 _ _ _ e hde⟩

/-! ## Normalization idempotence machinery (C3) -/

theorem toNat_ofNat_valid {n : Nat} (h : Nat.isValidChar n) :
    (Char.ofNat n).toNat = n := by
  unfold Char.ofNat
  rw [dif_pos h]
  rfl

theorem pyToLower_toNat_of_upper {c : Char} (h : 65 ≤ c.toNat ∧ c.toNat ≤ 90) :
    (pyToLower c).toNat = c.toNat + 32 := by
  unfold pyToLower
  rw [if_pos h]
  exact toNat_ofNat_valid (Or.inl (by omega))

theorem pyToLower_of_not_upper {c : Char} (h : ¬(65 ≤ c.toNat ∧ c.toNat ≤ 90)) :
    pyToLower c = c := by
  unfold pyToLower
  rw [if_neg h]

theorem pyToLower_idem (c : Char) : pyToLower (pyToLower c) = pyToLower c := by
  by_cases h : 65 ≤ c.toNat ∧ c.toNat ≤ 90
  · have h2 : (pyToLower c).toNat = c.toNat + 32 := pyToLower_toNat_of_upper h
    exact pyToLower_of_not_upper (by omega)
  · rw [pyToLower_of_not_upper h, pyToLower_of_not_upper h]

theorem isPySpace_pyToLower (c : Char) : isPySpace (pyToLower c) = isPySpace c := by
  by_cases h : 65 ≤ c.toNat ∧ c.toNat ≤ 90
  · have h2 : (pyToLower c).toNat = c.toNat + 32 := pyToLower_toNat_of_upper h
    unfold isPySpace
    rw [h2]
    have hl : (decide (c.toNat + 32 = 32) || decide (c.toNat + 32 = 9) ||
        decide (c.toNat + 32 = 10) || decide (c.toNat + 32 = 13) ||
        decide (c.toNat + 32 = 11) || decide (c.toNat + 32 = 12)) = false := by
      simp only [Bool.or_eq_false_iff, decide_eq_false_iff_not]
      omega
    have hr : (decide (c.toNat = 32) || decide (c.toNat = 9) ||
        decide (c.toNat = 10) || decide (c.toNat = 13) ||
        decide (c.toNat = 11) || decide (c.toNat = 12)) = false := by
      simp only [Bool.or_eq_false_iff, decide_eq_false_iff_not]
      omega
    rw [hl, hr]
  · rw [pyToLower_of_not_upper h]

theorem trimLeft_idem (l : List Char) : trimLeft (trimLeft l) = trimLeft l :=
  List.dropWhile_idempotent isPySpace l

theorem trimRight_idem (l : List Char) : trimRight (trimRight l) = trimRight l := by
  unfold trimRight
  rw [List.reverse_reverse, List.dropWhile_idempotent]

theorem trimRight_cons (c : Char) (t : List Char) :
    trimRight (c :: t) =
      if trimRight t = [] then (if isPySpace c then [] else [c])
      else c :: trimRight t := by
  unfold trimRight
  rw [List.reverse_cons, List.dropWhile_append]
  by_cases h : List.dropWhile isPySpace t.reverse = []
  · rw [if_pos (by rw [h]; rfl), if_pos (by rw [h]; rfl)]
    by_cases hc : isPySpace c <;> simp [List.dropWhile_cons, hc]
  · rw [if_neg (by simpa [List.isEmpty_iff] using h),
        if_neg (by simpa [List.reverse_eq_nil_iff] using h)]
    rw [List.reverse_append]
    rfl

theorem trimRight_eq_nil_iff (t : List Char) :
    trimRight t = [] ↔ ∀ c ∈ t, isPySpace c := by
  unfold trimRight
  rw [List.reverse_eq_nil_iff, List.dropWhile_eq_nil_iff]
  constructor
  · intro h c hc
    exact h c (List.mem_reverse.mpr hc)
  · intro h c hc
    exact h c (List.mem_reverse.mp hc)

theorem trimLeft_trimRight_comm (l : List Char) :
    trimLeft (trimRight l) = trimRight (trimLeft l) := by
  induction l with
  | nil => rfl
  | cons c t ih =>
    rw [trimRight_cons]
    by_cases h : trimRight t = []
    · rw [if_pos h]
      have hall : ∀ x ∈ t, isPySpace x = true := (trimRight_eq_nil_iff t).mp h
      have htl : trimLeft t = [] := List.dropWhile_eq_nil_iff.mpr hall
      by_cases hc : isPySpace c
      · rw [if_pos hc]
        show trimLeft [] = trimRight (trimLeft (c :: t))
        rw [show trimLeft (c :: t) = trimLeft t from by
          unfold trimLeft; rw [List.dropWhile_cons, if_pos hc]]
        rw [htl]
        rfl
      · rw [if_neg hc]
        show trimLeft [c] = trimRight (trimLeft (c :: t))
        rw [show trimLeft (c :: t) = c :: t from by
          unfold trimLeft; rw [List.dropWhile_cons, if_neg hc]]
        rw [show trimLeft [c] = [c] from by
          unfold trimLeft; rw [List.dropWhile_cons, if_neg hc]]
        rw [trimRight_cons, if_pos h, if_neg hc]
    · rw [if_neg h]
      by_cases hc : isPySpace c
      · show trimLeft (c :: trimRight t) = trimRight (trimLeft (c :: t))
        rw [show trimLeft (c :: trimRight t) = trimLeft (trimRight t) from by
          unfold trimLeft; rw [List.dropWhile_cons, if_pos hc]]
        rw [show trimLeft (c :: t) = trimLeft t from by
          unfold trimLeft; rw [List.dropWhile_cons, if_pos hc]]
        exact ih
      · show trimLeft (c :: trimRight t) = trimRight (trimLeft (c :: t))
        rw [show trimLeft (c :: trimRight t) = c :: trimRight t from by
          unfold trimLeft; rw [List.dropWhile_cons, if_neg hc]]
        rw [show trimLeft (c :: t) = c :: t from by
          unfold trimLeft; rw [List.dropWhile_cons, if_neg hc]]
        rw [trimRight_cons, if_neg h]

theorem pyStrip_idem (l : List Char) : pyStrip (pyStrip l) = pyStrip l := by
  unfold pyStrip
  rw [trimLeft_trimRight_comm (trimLeft l), trimRight_idem, trimLeft_idem]

theorem comp_isPySpace_pyToLower : (isPySpace ∘ pyToLower) = isPySpace :=
  funext isPySpace_pyToLower

theorem map_pyToLower_trimLeft (l : List Char) :
    (trimLeft l).map pyToLower = trimLeft (l.map pyToLower) := by
  unfold trimLeft
  rw [List.dropWhile_map, comp_isPySpace_pyToLower]

theorem map_pyToLower_trimRight (l : List Char) :
    (trimRight l).map pyToLower = trimRight (l.map pyToLower) := by
  unfold trimRight
  rw [List.map_reverse]
  congr 1
  rw [← List.map_reverse, List.dropWhile_map, comp_isPySpace_pyToLower]

theorem map_pyToLower_pyStrip (l : List Char) :
    (pyStrip l).map pyToLower = pyStrip (l.map pyToLower) := by
  unfold pyStrip
  rw [map_pyToLower_trimRight, map_pyToLower_trimLeft]

theorem removeURLsGo_of_no_match :
    ∀ (fuel : Nat) (cs : List Char), hasURLMatch cs = false →
    removeURLsGo fuel cs = cs := by
  intro fuel
  induction fuel with
  | zero => intro cs _; rfl
  | succ fuel ih =>
    intro cs h
    cases cs with
    | nil => rfl
    | cons c t =>
      unfold hasURLMatch at h
      rw [Bool.or_eq_false_iff] at h
      have h1 : urlRest (c :: t) = none := by
        cases h0 : urlRest (c :: t) with
        | none => rfl
        | some r => rw [h0] at h; exact absurd h.1 (by simp)
      unfold removeURLsGo
      dsimp only
      rw [h1]
      dsimp only at h
      rw [ih t h.2]

theorem removeURLs_of_no_match {cs : List Char} (h : hasURLMatch cs = false) :
    removeURLs cs = cs :=
  removeURLsGo_of_no_match cs.length cs h

theorem removeHashtagsGo_of_no_match :
    ∀ (fuel : Nat) (cs : List Char), hasTagMatch cs = false →
    removeHashtagsGo fuel cs = cs := by
  intro fuel
  induction fuel with
  | zero => intro cs _; rfl
  | succ fuel ih =>
    intro cs h
    cases cs with
    | nil => rfl
    | cons c t =>
      unfold hasTagMatch at h
      rw [Bool.or_eq_false_iff] at h
      have h1 : tagRest (c :: t) = none := by
        cases h0 : tagRest (c :: t) with
        | none => rfl
        | some r => rw [h0] at h; exact absurd h.1 (by simp)
      unfold removeHashtagsGo
      dsimp only
      rw [h1]
      dsimp only at h
      rw [ih t h.2]

theorem removeHashtags_of_no_match {cs : List Char} (h : hasTagMatch cs = false) :
    removeHashtags cs = cs :=
  removeHashtagsGo_of_no_match cs.length cs h

theorem removeTimestampsGo_of_no_match :
    ∀ (fuel : Nat) (cs : List Char), hasTsMatch cs = false →
    removeTimestampsGo fuel cs = cs := by
  intro fuel
  induction fuel with
  | zero => intro cs _; rfl
  | succ fuel ih =>
    intro cs h
    cases cs with
    | nil => rfl
    | cons c t =>
      unfold hasTsMatch at h
      rw [Bool.or_eq_false_iff] at h
      have h1 : tsRest (c :: t) = none := by
        cases h0 : tsRest (c :: t) with
        | none => rfl
        | some r => rw [h0] at h; exact absurd h.1 (by simp)
      unfold removeTimestampsGo
      dsimp only
      rw [h1]
      dsimp only at h
      rw [ih t h.2]

theorem removeTimestamps_of_no_match {cs : List Char} (h : hasTsMatch cs = false) :
    removeTimestamps cs = cs :=
  removeTimestampsGo_of_no_match cs.length cs h

theorem map_pyToLower_idem (l : List Char) :
    (l.map pyToLower).map pyToLower = l.map pyToLower := by
  rw [List.map_map]
  congr 1
  exact funext pyToLower_idem

theorem normalizeTextL_restabilizes (x : List Char)
    (h1 : containsSubstrL brSp (normalizeTextL x) = false)
    (h2 : hasURLMatch (normalizeTextL x) = false)
    (h3 : hasTagMatch (normalizeTextL x) = false)
    (h4 : hasTsMatch (normalizeTextL x) = false) :
    normalizeTextL (normalizeTextL x) = normalizeTextL x := by
  set y := normalizeTextL x with hy
  conv_lhs => unfold normalizeTextL
  rw [if_neg (by rw [h1]; exact Bool.false_ne_true)]
  rw [removeURLs_of_no_match h2, removeHashtags_of_no_match h3,
      removeTimestamps_of_no_match h4]
  rw [hy]
  have hform : normalizeTextL x = pyStrip ((removeTimestamps (removeHashtags (removeURLs
      (if containsSubstrL brSp x then afterFirst brSp x else x)))).map pyToLower) := rfl
  rw [hform, map_pyToLower_pyStrip, map_pyToLower_idem, pyStrip_idem]

/-- C3 (amended): normalization is idempotent EXACTLY on inputs whose
normalized form exposes no further removable structure. -/
theorem C3_normalize_conditional_idem :
    ∀ s : String,
    containsSubstrL brSp (normalizeText s).data = false →
    hasURLMatch (normalizeText s).data = false →
    hasTagMatch (normalizeText s).data = false →
    hasTsMatch (normalizeText s).data = false →
    normalizeText (normalizeText s) = normalizeText s := by
  intro s h1 h2 h3 h4
  exact congrArg String.mk (normalizeTextL_restabilizes s.data h1 h2 h3 h4)

/-! ## Uniqueness-ranker lemmas (C8) -/

theorem simAccum_foldl (t : List Char) (i : Nat) :
    ∀ (l : List (Nat × String)) (ac : ℚ × Nat),
    (l.foldl (fun (ac : ℚ × Nat) p =>
        if p.1 = i then ac
        else (ac.1 + ratioL t (normalizeSimpleL p.2.data), ac.2 + 1)) ac) =
      (ac.1 + ((l.filter (fun p => p.1 ≠ i)).map
          (fun p => ratioL t (normalizeSimpleL p.2.data))).sum,
        ac.2 + (l.filter (fun p => p.1 ≠ i)).length) := by
  intro l
  induction l with
  | nil => intro ac; simp
  | cons p rest ih =>
    intro ac
    rw [List.foldl_cons]
    by_cases h : p.1 = i
    · rw [if_pos h, ih]
      have hf : List.filter (fun q => q.1 ≠ i) (p :: rest) =
          List.filter (fun q => q.1 ≠ i) rest := by
        rw [List.filter_cons, if_neg (by simp [h])]
      rw [hf]
    · rw [if_neg h, ih]
      have hf : List.filter (fun q => q.1 ≠ i) (p :: rest) =
          p :: List.filter (fun q => q.1 ≠ i) rest := by
        rw [List.filter_cons, if_pos (by simp [h])]
      rw [hf, List.map_cons, List.sum_cons, List.length_cons, Prod.mk.injEq]
      constructor
      · ring
      · omega

theorem simAccum_eq (t : List Char) (i : Nat) (pool : List String) :
    simAccum t i pool =
      (((pool.enum.filter (fun p => p.1 ≠ i)).map
          (fun p => ratioL t (normalizeSimpleL p.2.data))).sum,
        (pool.enum.filter (fun p => p.1 ≠ i)).length) := by
  unfold simAccum
  rw [simAccum_foldl]
  simp

theorem filter_ne_add_filter_eq (i : Nat) :
    ∀ (l : List (Nat × String)),
    (l.filter (fun p => p.1 ≠ i)).length + (l.filter (fun p => p.1 = i)).length =
      l.length := by
  intro l
  induction l with
  | nil => rfl
  | cons p rest ih =>
    rw [List.filter_cons, List.filter_cons]
    by_cases h : p.1 = i
    · rw [if_neg (by simp [h]), if_pos (by simp [h])]
      simp only [List.length_cons]
      omega
    · rw [if_pos (by simp [h]), if_neg (by simp [h])]
      simp only [List.length_cons]
      omega

theorem enumFrom_filter_eq_len :
    ∀ (l : List String) (k i : Nat), k ≤ i → i < k + l.length →
    ((List.enumFrom k l).filter (fun p => p.1 = i)).length = 1 := by
  intro l
  induction l with
  | nil => intro k i h1 h2; simp at h2; omega
  | cons x l ih =>
    intro k i h1 h2
    rw [show List.enumFrom k (x :: l) = (k, x) :: List.enumFrom (k + 1) l from rfl,
      List.filter_cons]
    by_cases hk : k = i
    · rw [if_pos (by simp [hk])]
      have hrest : (List.enumFrom (k + 1) l).filter (fun p => p.1 = i) = [] := by
        apply List.filter_eq_nil_iff.mpr
        intro p hp
        have hle := List.le_fst_of_mem_enumFrom hp
        simp only [decide_eq_true_eq]
        omega
      rw [hrest]
      rfl
    · rw [if_neg (by simp [hk])]
      apply ih (k + 1) i (by omega)
      simp only [List.length_cons] at h2
      omega

theorem enum_filter_ne_length (pool : List String) (i : Nat) (h : i < pool.length) :
    ((pool.enum).filter (fun p => p.1 ≠ i)).length = pool.length - 1 := by
  have h1 := filter_ne_add_filter_eq i pool.enum
  have h2 : ((pool.enum).filter (fun p => p.1 = i)).length = 1 := by
    have := enumFrom_filter_eq_len pool 0 i (Nat.zero_le i) (by omega)
    simpa [List.enum] using this
  rw [List.enum_length] at h1
  omega

instance : IsTrans (ℚ × String) rankLe := by
  constructor
  intro a b c hab hbc
  rcases hab with h1 | ⟨h1, h2⟩
  · rcases hbc with h3 | ⟨h3, h4⟩
    · exact Or.inl (lt_trans h3 h1)
    · exact Or.inl (h3 ▸ h1)
  · rcases hbc with h3 | ⟨h3, h4⟩
    · exact Or.inl (h1 ▸ h3)
    · exact Or.inr ⟨h1.trans h3, le_trans h4 h2⟩

instance : IsTotal (ℚ × String) rankLe := by
  constructor
  intro a b
  rcases lt_trichotomy a.1 b.1 with h | h | h
  · exact Or.inr (Or.inl h)
  · rcases le_total a.2 b.2 with h2 | h2
    · exact Or.inr (Or.inr ⟨h.symm, h2⟩)
    · exact Or.inl (Or.inr ⟨h, h2⟩)
  · exact Or.inl (Or.inl h)

theorem uniquenessScore_singleton (x : String) : uniquenessScore [x] 0 = 1 := by
  unfold uniquenessScore
  have h : simAccum (normalizeSimpleL (([x] : List String).getD 0 "").data) 0 [x] = (0, 0) := rfl
  rw [h]
  norm_num

theorem rankPool_singleton (x : String) : rankPool [x] = [(1, x)] := by
  unfold rankPool scoredPool
  have h1 : ([x] : List String).enum = [(0, x)] := rfl
  rw [h1]
  rw [List.map_cons, List.map_nil, uniquenessScore_singleton]
  rfl

/-- C8: the uniqueness ranker — (a) for pools of at least two members the
score of member `i` is exactly `1` minus the average SequenceMatcher
similarity (URL- and hashtag-stripped normalization) to the other
`n - 1` members; (b) a one-element pool gets uniqueness `1`; (c) the
ranked output is the scored pool, reordered descending by score. -/
theorem C8_uniqueness_ranker :
    (∀ (pool : List String) (i : Nat), i < pool.length → 2 ≤ pool.length →
      uniquenessScore pool i =
        1 - ((pool.enum.filter (fun p => p.1 ≠ i)).map
              (fun p => ratioL (normalizeSimpleL (pool.getD i "").data)
                (normalizeSimpleL p.2.data))).sum / ((pool.length - 1 : Nat) : ℚ)) ∧
    (∀ x : String, rankPool [x] = [(1, x)]) ∧
    (∀ pool : List String,
      List.Sorted (fun p q : ℚ × String => q.1 ≤ p.1) (rankPool pool) ∧
      (rankPool pool).Perm (scoredPool pool)) := by
  refine ⟨?_, rankPool_singleton, ?_⟩
  · intro pool i hi hlen
    unfold uniquenessScore
    rw [simAccum_eq, enum_filter_ne_length pool i hi]
    have hpos : 0 < pool.length - 1 := by omega
    rw [if_pos hpos]
  · intro pool
    constructor
    · have hs : List.Sorted rankLe (rankPool pool) :=
        List.sorted_insertionSort rankLe (scoredPool pool)
      apply List.Pairwise.imp ?_ hs
      intro a b hab
      rcases hab with h | ⟨h, -⟩
      · exact le_of_lt h
      · exact le_of_eq h.symm
    · exact List.perm_insertionSort rankLe (scoredPool pool)

/-! ## SequenceMatcher self-similarity and archive lemmas (C4) -/

theorem flmRow_self_inv (a : List Char) (i : Nat) (m : Nat → Nat)
    (hm1 : ∀ x, m x ≤ i) (hm2 : ∀ x, m x ≤ x + 1)
    (hdiag : 0 < i → m (i - 1) = i) :
    ∀ (js : List Nat), js.Pairwise (· < ·) → (∀ j ∈ js, j < a.length) →
    ∀ (new : Nat → Nat) (best : Nat × Nat × Nat),
    (∀ x, new x ≤ i + 1) → (∀ x, new x ≤ x + 1) →
    ((i ∈ js ∧ best = (0, 0, i)) ∨ (i ∉ js ∧ best = (0, 0, i + 1) ∧ new i = i + 1)) →
    (∀ x, (flmRow m i 0 a.length js new best).1 x ≤ i + 1) ∧
    (∀ x, (flmRow m i 0 a.length js new best).1 x ≤ x + 1) ∧
    (flmRow m i 0 a.length js new best).2 = (0, 0, i + 1) ∧
    (flmRow m i 0 a.length js new best).1 i = i + 1 := by
  intro js
  induction js with
  | nil =>
    intro _ _ new best hn1 hn2 hinv
    rcases hinv with ⟨hmem, -⟩ | ⟨-, hbest, hni⟩
    · exact absurd hmem (List.not_mem_nil i)
    · exact ⟨hn1, hn2, hbest, hni⟩
  | cons j js' ih =>
    intro hpw hlt new best hn1 hn2 hinv
    have hj : j < a.length := hlt j (List.mem_cons_self j js')
    have hpw' : js'.Pairwise (· < ·) := hpw.of_cons
    have hjlt : ∀ x ∈ js', j < x := fun x hx => List.rel_of_pairwise_cons hpw hx
    have hlt' : ∀ x ∈ js', x < a.length := fun x hx => hlt x (List.mem_cons_of_mem j hx)
    unfold flmRow
    rw [if_pos ⟨Nat.zero_le j, hj⟩]
    dsimp only
    have hk1 : (if j = 0 then 0 else m (j - 1)) + 1 ≤ i + 1 := by
      split
      · omega
      · have := hm1 (j - 1)
        omega
    have hk2 : (if j = 0 then 0 else m (j - 1)) + 1 ≤ j + 1 := by
      split
      · omega
      · have := hm2 (j - 1)
        omega
    have hn1' : ∀ x, (if x = j then (if j = 0 then 0 else m (j - 1)) + 1
        else new x) ≤ i + 1 := by
      intro x
      split
      · exact hk1
      · exact hn1 x
    have hn2' : ∀ x, (if x = j then (if j = 0 then 0 else m (j - 1)) + 1
        else new x) ≤ x + 1 := by
      intro x
      split
      · rename_i hx
        rw [hx]
        exact hk2
      · exact hn2 x
    rcases hinv with ⟨hmem, hbest⟩ | ⟨hni, hbest, hnewi⟩
    · rcases List.mem_cons.mp hmem with hji | hmem'
      · obtain rfl : j = i := hji.symm
        have hk : (if j = 0 then 0 else m (j - 1)) + 1 = j + 1 := by
          by_cases h0 : j = 0
          · rw [if_pos h0, h0]
          · rw [if_neg h0, hdiag (by omega)]
        have hnotmem : j ∉ js' := fun hx => absurd (hjlt j hx) (lt_irrefl j)
        have hbu : (if best.2.2 < (if j = 0 then 0 else m (j - 1)) + 1
            then (j + 1 - ((if j = 0 then 0 else m (j - 1)) + 1),
                  j + 1 - ((if j = 0 then 0 else m (j - 1)) + 1),
                  (if j = 0 then 0 else m (j - 1)) + 1)
            else best) = (0, 0, j + 1) := by
          rw [hbest, hk]
          dsimp only
          rw [if_pos (by omega)]
          rw [Nat.sub_self]
        have hnew2i : (if j = j then (if j = 0 then 0 else m (j - 1)) + 1
            else new j) = j + 1 := by
          rw [if_pos rfl, hk]
        refine ih hpw' hlt' _ _ hn1' hn2' (Or.inr ⟨hnotmem, ?_, hnew2i⟩)
        exact hbu
      · have hji2 : j < i := hjlt i hmem'
        have hnou : ¬(best.2.2 < (if j = 0 then 0 else m (j - 1)) + 1) := by
          rw [hbest]
          dsimp only
          omega
        rw [if_neg hnou]
        exact ih hpw' hlt' _ best hn1' hn2' (Or.inl ⟨hmem', hbest⟩)
    · have hjne : j ≠ i := fun h => hni (h ▸ List.mem_cons_self j js')
      have hni' : i ∉ js' := fun hx => hni (List.mem_cons_of_mem j hx)
      have hnou : ¬(best.2.2 < (if j = 0 then 0 else m (j - 1)) + 1) := by
        rw [hbest]
        dsimp only
        omega
      rw [if_neg hnou]
      have hnew2i : (if i = j then (if j = 0 then 0 else m (j - 1)) + 1
          else new i) = i + 1 := by
        rw [if_neg (fun h => hjne h.symm), hnewi]
      exact ih hpw' hlt' _ best hn1' hn2' (Or.inr ⟨hni', hbest, hnew2i⟩)

theorem b2j_self_mem (a : List Char) (i : Nat) (hi : i < a.length) (c : Char)
    (hc : a.get? i = some c) : i ∈ b2j a c := by
  unfold b2j
  rw [List.mem_filter]
  exact ⟨List.mem_range.mpr hi, by rw [hc]; simp⟩

theorem b2j_pairwise (a : List Char) (c : Char) : (b2j a c).Pairwise (· < ·) :=
  (List.pairwise_lt_range a.length).sublist (List.filter_sublist _)

theorem b2j_lt (a : List Char) (c : Char) : ∀ j ∈ b2j a c, j < a.length := by
  intro j hj
  unfold b2j at hj
  exact List.mem_range.mp (List.mem_filter.mp hj).1

theorem b2jAuto_eq (b : List Char) (hb : b.length < 200) (c : Char) :
    b2jAuto b c = b2j b c := by
  unfold b2jAuto
  rw [if_neg (fun h => absurd h.1 (by omega))]

theorem extendLeft_eq_self (a b : List Char) (alo blo fuel : Nat)
    (best : Nat × Nat × Nat) (h : ¬alo < best.1) :
    extendLeft a b alo blo fuel best = best := by
  cases fuel with
  | zero => rfl
  | succ fuel =>
    unfold extendLeft
    rw [if_neg (fun hc => h hc.1)]

theorem extendRight_eq_self (a b : List Char) (ahi bhi fuel : Nat)
    (best : Nat × Nat × Nat) (h : ¬best.1 + best.2.2 < ahi) :
    extendRight a b ahi bhi fuel best = best := by
  cases fuel with
  | zero => rfl
  | succ fuel =>
    unfold extendRight
    rw [if_neg (fun hc => h hc.1)]

theorem flmGo_self (a : List Char) (hlen : a.length < 200) :
    ∀ (cnt i : Nat), i + cnt = a.length →
    ∀ (m : Nat → Nat), (∀ x, m x ≤ i) → (∀ x, m x ≤ x + 1) →
    (0 < i → m (i - 1) = i) →
    flmGo a a 0 a.length (List.range' i cnt) m (0, 0, i) = (0, 0, a.length) := by
  intro cnt
  induction cnt with
  | zero =>
    intro i hi m _ _ _
    show (0, 0, i) = (0, 0, a.length)
    rw [show i = a.length from by omega]
  | succ cnt ih =>
    intro i hi m hm1 hm2 hdiag
    have hilen : i < a.length := by omega
    rw [show List.range' i (cnt + 1) = i :: List.range' (i + 1) cnt from rfl]
    cases hc : a.get? i with
    | none =>
      exact absurd (List.get?_eq_get hilen) (by rw [hc]; simp)
    | some c =>
      unfold flmGo
      rw [hc]
      dsimp only
      rw [b2jAuto_eq a hlen c]
      have hrow := flmRow_self_inv a i m hm1 hm2 hdiag (b2j a c)
        (b2j_pairwise a c) (b2j_lt a c) (fun _ => 0) (0, 0, i)
        (fun x => Nat.zero_le _) (fun x => Nat.zero_le _)
        (Or.inl ⟨b2j_self_mem a i hilen c hc, rfl⟩)
      obtain ⟨hb1, hb2, hbest, hdi⟩ := hrow
      rw [hbest]
      apply ih (i + 1) (by omega)
      · exact hb1
      · exact hb2
      · intro _
        simpa using hdi

theorem findLongestMatch_self (a : List Char) (hlen : a.length < 200) :
    findLongestMatch a a 0 a.length 0 a.length = (0, 0, a.length) := by
  unfold findLongestMatch
  rw [Nat.sub_zero]
  rw [flmGo_self a hlen a.length 0 (by omega) (fun _ => 0)
    (fun _ => Nat.le_refl 0) (fun _ => Nat.zero_le _) (fun h => absurd h (by omega))]
  rw [extendLeft_eq_self a a 0 0 a.length (0, 0, a.length)
    (show ¬(0:Nat) < 0 from by omega)]
  exact extendRight_eq_self a a a.length a.length a.length (0, 0, a.length)
    (show ¬0 + a.length < a.length from by omega)

theorem matchingSize_empty (fuel : Nat) (a b : List Char) (x y : Nat) :
    matchingSize fuel a b x x y y = 0 := by
  cases fuel with
  | zero => rfl
  | succ fuel =>
    unfold matchingSize
    have h : findLongestMatch a b x x y y = (x, y, 0) := by
      unfold findLongestMatch
      rw [Nat.sub_self]
      rw [show flmGo a b y y (List.range' x 0) (fun _ => 0) (x, y, 0) = (x, y, 0)
        from rfl]
      rw [extendLeft_eq_self a b x y x (x, y, 0) (show ¬x < x from by omega)]
      exact extendRight_eq_self a b x y x (x, y, 0)
        (show ¬x + 0 < x from by omega)
    rw [h]
    simp

theorem totalMatched_self (a : List Char) (hlen : a.length < 200) :
    totalMatched a a = a.length := by
  unfold totalMatched
  cases ha : a.length + a.length with
  | zero => rw [show a.length = 0 from by omega]; rfl
  | succ f =>
    unfold matchingSize
    rw [findLongestMatch_self a hlen]
    dsimp only
    by_cases h0 : a.length = 0
    · rw [if_pos h0, h0]
    · rw [if_neg h0]
      rw [Nat.zero_add, matchingSize_empty, matchingSize_empty]
      omega

theorem ratioL_self (a : List Char) (hlen : a.length < 200) : ratioL a a = 1 := by
  unfold ratioL
  by_cases h : a.length + a.length = 0
  · rw [if_pos h]
  · rw [if_neg h, totalMatched_self a hlen]
    have hn : (a.length : ℚ) ≠ 0 := by
      intro h0
      have := Nat.cast_eq_zero.mp h0
      omega
    rw [← two_mul]
    exact div_self (mul_ne_zero two_ne_zero hn)

theorem readStep_mono {x : String} {acc : List String} (e : String)
    (h : x ∈ acc) : x ∈ readStep acc e := by
  unfold readStep
  split_ifs with h1 h2
  · exact h
  · exact List.mem_append_left _ h
  · exact h

theorem readFold_mono {x : String} :
    ∀ (l : List String) (acc : List String), x ∈ acc →
    x ∈ l.foldl readStep acc := by
  intro l
  induction l with
  | nil => intro acc h; exact h
  | cons e rest ih =>
    intro acc h
    exact ih (readStep acc e) (readStep_mono e h)

theorem readStep_nodup {acc : List String} (e : String) (h : acc.Nodup) :
    (readStep acc e).Nodup := by
  unfold readStep
  split_ifs with h1 h2
  · exact h
  · refine List.Nodup.append h (List.nodup_singleton _) ?_
    intro a ha hb
    rw [List.mem_singleton.mp hb] at ha
    exact h2.2 ha
  · exact h

theorem readFold_nodup :
    ∀ (l : List String) (acc : List String), acc.Nodup →
    (l.foldl readStep acc).Nodup := by
  intro l
  induction l with
  | nil => intro acc h; exact h
  | cons e rest ih =>
    intro acc h
    exact ih (readStep acc e) (readStep_nodup e h)

theorem readFold_mem_of {e : String} :
    ∀ (l : List String) (acc : List String), e ∈ l →
    pyStrip e.data ≠ [] →
    payloadOf (String.mk (pyStrip e.data)) ≠ "" →
    payloadOf (String.mk (pyStrip e.data)) ∈ l.foldl readStep acc := by
  intro l
  induction l with
  | nil => intro acc h; exact absurd h (List.not_mem_nil e)
  | cons a rest ih =>
    intro acc hmem hs hp
    rcases List.mem_cons.mp hmem with rfl | hmem'
    · refine readFold_mono rest (readStep acc e) ?_
      unfold readStep
      rw [if_neg (by
        intro h0
        apply hs
        have := congrArg String.data h0
        exact this)]
      by_cases h2 : payloadOf (String.mk (pyStrip e.data)) ≠ "" ∧
          payloadOf (String.mk (pyStrip e.data)) ∉ acc
      · rw [if_pos h2]
        exact List.mem_append_right _ (List.mem_singleton_self _)
      · rw [if_neg h2]
        push_neg at h2
        exact h2 hp
    · exact ih (readStep acc a) hmem' hs hp

theorem dropWhile_eq_self_of_length {p : Char → Bool} {l : List Char}
    (h : (l.dropWhile p).length = l.length) : l.dropWhile p = l := by
  have hsplit := List.takeWhile_append_dropWhile p l
  have hlen : (l.takeWhile p).length + (l.dropWhile p).length = l.length := by
    rw [← List.length_append, hsplit]
  have htw : l.takeWhile p = [] := by
    apply List.eq_nil_of_length_eq_zero
    omega
  rw [htw] at hsplit
  simpa using hsplit

theorem pyStrip_eq_self_parts {l : List Char} (h : pyStrip l = l) :
    trimLeft l = l ∧ trimRight l = l := by
  have h1 : (trimLeft l).length ≤ l.length := (List.dropWhile_sublist _).length_le
  have h2 : (trimRight (trimLeft l)).length ≤ (trimLeft l).length := by
    unfold trimRight
    rw [List.length_reverse]
    calc ((trimLeft l).reverse.dropWhile isPySpace).length
        ≤ (trimLeft l).reverse.length := (List.dropWhile_sublist _).length_le
      _ = (trimLeft l).length := List.length_reverse _
  have h3 : (pyStrip l).length = l.length := by rw [h]
  unfold pyStrip at h3
  have h4 : (trimLeft l).length = l.length := by omega
  have h5 : trimLeft l = l := dropWhile_eq_self_of_length h4
  refine ⟨h5, ?_⟩
  unfold pyStrip at h
  rw [h5] at h
  exact h

theorem trimRight_of_reverse_head {l : List Char} {d : Char} {rest : List Char}
    (h : l.reverse = d :: rest) (hd : isPySpace d = false) : trimRight l = l := by
  unfold trimRight
  rw [h, List.dropWhile_cons, if_neg (by simp [hd]), ← h, List.reverse_reverse]

theorem reverse_head_not_space {l : List Char} (hne : l ≠ [])
    (h : trimRight l = l) : ∃ d rest, l.reverse = d :: rest ∧ isPySpace d = false := by
  cases hrev : l.reverse with
  | nil => exact absurd (List.reverse_eq_nil_iff.mp hrev) hne
  | cons d rest =>
    refine ⟨d, rest, rfl, ?_⟩
    by_contra hd
    have hd2 : isPySpace d = true := by
      cases hb : isPySpace d
      · exact absurd hb hd
      · rfl
    have h2 : l.reverse.dropWhile isPySpace = l.reverse := by
      have := congrArg List.reverse h
      unfold trimRight at this
      rwa [List.reverse_reverse] at this
    rw [hrev, List.dropWhile_cons, if_pos (by simp [hd2])] at h2
    have hlen : (rest.dropWhile isPySpace).length ≤ rest.length :=
      (List.dropWhile_sublist _).length_le
    have := congrArg List.length h2
    simp only [List.length_cons] at this
    omega

theorem containsSubstrL_junction : ∀ (x y : List Char),
    containsSubstrL brSp (x ++ (']' :: ' ' :: y)) = true := by
  intro x
  induction x with
  | nil =>
    intro y
    rfl
  | cons c x' ih =>
    intro y
    unfold containsSubstrL
    rw [Bool.or_eq_true]
    exact Or.inr (ih y)

theorem afterFirst_junction : ∀ (x y : List Char), ']' ∉ x →
    afterFirst brSp (x ++ (']' :: ' ' :: y)) = y := by
  intro x
  induction x with
  | nil =>
    intro y _
    rfl
  | cons c x' ih =>
    intro y hx
    have hc : c ≠ ']' := fun h => hx (h ▸ List.mem_cons_self c x')
    have hsw : startsWithL brSp (c :: (x' ++ (']' :: ' ' :: y))) = false := by
      show startsWithL (']' :: ' ' :: []) (c :: (x' ++ (']' :: ' ' :: y))) = false
      unfold startsWithL
      rw [show decide (']' = c) = false from decide_eq_false (fun h => hc h.symm),
        Bool.false_and]
    unfold afterFirst
    rw [List.cons_append, if_neg (by rw [hsw]; exact Bool.false_ne_true)]
    exact ih y (fun h => hx (List.mem_cons_of_mem c h))

theorem mkEntry_data (ts t : String) :
    (mkEntry ts t).data = ('[' :: ts.data) ++ (']' :: ' ' :: t.data) := by
  show ((("[" ++ ts) ++ "] ") ++ t).data = _
  have h1 : ∀ s r : String, (s ++ r).data = s.data ++ r.data := fun s r => rfl
  rw [h1, h1, h1]
  show (('[' :: []) ++ ts.data ++ (']' :: ' ' :: [])) ++ t.data = _
  simp

theorem bracket_not_mem_mkEntry_left {ts : String}
    (hts : ']' ∉ ts.data) : ']' ∉ ('[' :: ts.data) := by
  intro h
  rcases List.mem_cons.mp h with h1 | h1
  · exact absurd h1 (by decide)
  · exact hts h1

theorem normalizeTextL_mkEntry (ts t : String)
    (hts : ']' ∉ ts.data) (ht : containsSubstrL brSp t.data = false) :
    normalizeTextL (mkEntry ts t).data = normalizeTextL t.data := by
  unfold normalizeTextL
  rw [mkEntry_data]
  rw [if_pos (containsSubstrL_junction _ _),
    afterFirst_junction _ _ (bracket_not_mem_mkEntry_left hts)]
  rw [if_neg (by rw [ht]; exact Bool.false_ne_true)]

theorem pyStrip_mkEntry (ts t : String) (hst : pyStrip t.data = t.data)
    (hne : t ≠ "") : pyStrip (mkEntry ts t).data = (mkEntry ts t).data := by
  have htd : t.data ≠ [] := by
    intro h0
    apply hne
    have hts2 : t = String.mk t.data := rfl
    rw [hts2, h0]
  obtain ⟨d, rest, hrev, hd⟩ :=
    reverse_head_not_space htd (pyStrip_eq_self_parts hst).2
  have htl : trimLeft (mkEntry ts t).data = (mkEntry ts t).data := by
    rw [mkEntry_data]
    unfold trimLeft
    rw [List.cons_append, List.dropWhile_cons, if_neg (by decide)]
  have htr : trimRight (mkEntry ts t).data = (mkEntry ts t).data := by
    have hrev2 : (mkEntry ts t).data.reverse =
        d :: (rest ++ ([' ', ']'] ++ ('[' :: ts.data).reverse)) := by
      rw [mkEntry_data, List.reverse_append]
      rw [show (']' :: ' ' :: t.data).reverse = t.data.reverse ++ [' ', ']'] from by simp]
      rw [hrev]
      simp
    exact trimRight_of_reverse_head hrev2 hd
  unfold pyStrip
  rw [htl, htr]

theorem payloadOf_mkEntry (ts t : String) (hst : pyStrip t.data = t.data)
    (hts : ']' ∉ ts.data) : payloadOf (mkEntry ts t) = t := by
  unfold payloadOf
  have hcontains : containsSubstrL brSp (mkEntry ts t).data = true := by
    rw [mkEntry_data]
    exact containsSubstrL_junction _ _
  rw [if_pos hcontains]
  rw [show afterFirst brSp (mkEntry ts t).data = t.data from by
    rw [mkEntry_data]
    exact afterFirst_junction _ _ (bracket_not_mem_mkEntry_left hts)]
  rw [hst]

theorem appendBatch_single (existing : List String) (t ts : String)
    (h1 : ¬((normalizeTextL t.data).length < 20))
    (h2 : (existing.map (fun e => normalizeTextL e.data)).any
      (fun e => !(e.length < 20) && ((9:ℚ)/10 ≤ ratioL (normalizeTextL t.data) e)) =
      false) :
    appendBatch existing [t] ts = existing ++ [mkEntry ts t] := by
  unfold appendBatch appendGo
  rw [if_neg h1, if_neg (by rw [h2]; exact Bool.false_ne_true)]
  rw [show appendGo ts (existing.map (fun e => normalizeTextL e.data) ++
    [normalizeTextL t.data]) [] = [] from rfl]

theorem appendBatch_skip (entries : List String) (t ts : String)
    (h1 : ¬((normalizeTextL t.data).length < 20))
    (h2 : (entries.map (fun e => normalizeTextL e.data)).any
      (fun e => !(e.length < 20) && ((9:ℚ)/10 ≤ ratioL (normalizeTextL t.data) e)) =
      true) :
    appendBatch entries [t] ts = entries := by
  unfold appendBatch appendGo
  rw [if_neg h1, if_pos h2]
  rw [show appendGo ts (entries.map fun e => normalizeTextL e.data) [] = [] from rfl,
    List.append_nil]

/-- C4 (amended): for a text `t` whose normalized form is at least 20
characters (the short-text bypass is excluded — see `C4_counterexample`)
and under 200 characters (so the SequenceMatcher autojunk purge, active
only on second sequences of length at least 200, is inert), that is
stripped, non-empty, free of the `'] '` delimiter, and not within `0.9`
SequenceMatcher similarity of any (long-enough) existing normalized
entry, appending `[t]` yields an archive whose read contains `t` exactly
once, and appending `[t]` again is a no-op: the pre-write `full >= 0.9`
re-check catches the identical normalized form. -/
theorem C4_archive_append_amended :
    ∀ (existing : List String) (t ts ts2 : String),
    20 ≤ (normalizeTextL t.data).length →
    (normalizeTextL t.data).length < 200 →
    (∀ e ∈ existing, ¬((normalizeTextL e.data).length < 20) →
      ratioL (normalizeTextL t.data) (normalizeTextL e.data) < (9:ℚ)/10) →
    pyStrip t.data = t.data → t ≠ "" →
    containsSubstrL brSp t.data = false →
    ']' ∉ ts.data → ']' ∉ ts2.data →
    (readArchive (appendBatch existing [t] ts)).count t = 1 ∧
    appendBatch (appendBatch existing [t] ts) [t] ts2 =
      appendBatch existing [t] ts := by
  intro existing t ts ts2 h1 h1b h2 h3 h4 h5 h6 h7
  have hno : (existing.map (fun e => normalizeTextL e.data)).any
      (fun e => !(e.length < 20) && ((9:ℚ)/10 ≤ ratioL (normalizeTextL t.data) e)) =
      false := by
    rw [List.any_eq_false]
    intro x hx
    rw [List.mem_map] at hx
    obtain ⟨e, he, rfl⟩ := hx
    intro hcontra
    rw [Bool.and_eq_true] at hcontra
    have hlen : ¬((normalizeTextL e.data).length < 20) := by
      have hh := hcontra.1
      simp only [Bool.not_eq_true'] at hh
      exact of_decide_eq_false hh
    have hlt := h2 e he hlen
    have hge : (9:ℚ)/10 ≤ ratioL (normalizeTextL t.data) (normalizeTextL e.data) :=
      of_decide_eq_true hcontra.2
    exact absurd hge (not_le.mpr hlt)
  have hbatch : appendBatch existing [t] ts = existing ++ [mkEntry ts t] :=
    appendBatch_single existing t ts (by omega) hno
  have hsE : pyStrip (mkEntry ts t).data = (mkEntry ts t).data :=
    pyStrip_mkEntry ts t h3 h4
  constructor
  · rw [hbatch]
    have hpE : payloadOf (String.mk (pyStrip (mkEntry ts t).data)) = t := by
      rw [hsE]
      exact payloadOf_mkEntry ts t h3 h6
    have hmem : t ∈ (existing ++ [mkEntry ts t]).foldl readStep [] := by
      have hm := readFold_mem_of (existing ++ [mkEntry ts t]) []
        (List.mem_append_right _ (List.mem_singleton_self _))
        (by rw [hsE, mkEntry_data]; simp)
        (by rw [hpE]; exact h4)
      rwa [hpE] at hm
    exact List.count_eq_one_of_mem (readFold_nodup _ [] List.nodup_nil) hmem
  · rw [hbatch]
    apply appendBatch_skip
    · omega
    · rw [List.any_eq_true]
      refine ⟨normalizeTextL (mkEntry ts t).data, ?_, ?_⟩
      · rw [List.map_append]
        apply List.mem_append_right
        simp
      · rw [Bool.and_eq_true]
        constructor
        · rw [normalizeTextL_mkEntry ts t h6 h5]
          simp only [Bool.not_eq_true']
          apply decide_eq_false
          omega
        · apply decide_eq_true
          rw [normalizeTextL_mkEntry ts t h6 h5,
            ratioL_self (normalizeTextL t.data) h1b]
          norm_num

/-! ## Concrete counterexamples and witnesses

Rational arithmetic is made transparent locally so that `decide` can
evaluate the embedded score computations in the kernel. -/

section ConcreteChecks

attribute [local semireducible] Rat.add Rat.mul Rat.sub Rat.inv

/-- C2 (counterexample to the claim as stated): with an empty reference
corpus, the loop admits `"the quick brown fox jumps high"` and then
`"the quick brown fox runs far"` — but the second is classified a
duplicate of the first by `check_tweet_uniqueness` (identical first four
words), so a reachable pool DOES contain a member that is a duplicate of
an earlier member: the classifier is never re-run against the
pool-so-far. -/
theorem C2_counterexample :
    (runPool [] 10 (fun k => if k = 0 then some "the quick brown fox jumps high"
        else some "the quick brown fox runs far") 2).pool =
      ["the quick brown fox jumps high", "the quick brown fox runs far"] ∧
    checkTweetUniqueness "the quick brown fox runs far"
      ["the quick brown fox jumps high"] ((3:ℚ)/5) = false := by
  constructor <;> decide

/-- C2 witness: the amended invariant applied after one step of a run
with an empty corpus — the admitted member passed the classifier against
the corpus. -/
theorem C2_witness :
    checkTweetUniqueness "the quick brown fox jumps high" [] ((3:ℚ)/5) = true :=
  (C2_pool_invariant_amended [] 10
      (fun _ => some "the quick brown fox jumps high") 1).2
    "the quick brown fox jumps high" (by decide)

/-- C5 (counterexample to "exactly when ... sharing both domain and exact
path with a candidate URL"): the collision shortcut fires for a candidate
holding `https://a.com/1` and `https://b.com/2` against a reference
holding `https://a.com/2`, although NO single candidate URL shares both
domain and path with the reference URL (the domain comes from one
candidate URL, the path from the other). -/
theorem C5_counterexample :
    urlCollision ("check https://a.com/1 and https://b.com/2 now").data
      ["see https://a.com/2 here"] = true ∧
    ((findallURLs ("check https://a.com/1 and https://b.com/2 now").data).all
      (fun u => (findallURLs ("see https://a.com/2 here").data).all
        (fun v => !(netlocOf u = netlocOf v && pathOf u = pathOf v)))) = true := by
  constructor <;> decide

/-- C5 witness: the amended theorem applied at the concrete colliding
input classifies it a duplicate at threshold `0.7`. -/
theorem C5_witness :
    isSimilarToExisting "check https://a.com/1 and https://b.com/2 now"
      ["see https://a.com/2 here"] ((7:ℚ)/10) = true :=
  (C5_url_collision_amended "check https://a.com/1 and https://b.com/2 now"
    ["see https://a.com/2 here"] ((7:ℚ)/10)).2 (by decide)

/-- C6 witness: with pool target `10` (budget `30`) and an
always-duplicate generator, the loop ends in the exhausted state with an
empty pool after exactly `30` attempts. -/
theorem C6_witness :
    runPool ["the quick brown fox sleeps"] 10
      (fun _ => some "the quick brown fox jumps") 30 = ⟨[], 30⟩ :=
  (C6_pool_termination ["the quick brown fox sleeps"] 10).2.2
    (fun _ => some "the quick brown fox jumps")
    (fun k t h => by injection h with h2; rw [← h2]; decide)
    (by norm_num) 30 (by norm_num)

/-- C7 witness: in a batch where the second post fails, the third text is
still posted and its archive entry is accounted for by a successfully
posted text. -/
theorem C7_witness :
    mkEntry "2024-06-01 12:00:00" "gamma tweet three" ∈ ([] : List String) ∨
    ∃ t ∈ (postLoop (fun i _ => !(i == 1))
        [(0, "alpha tweet one"), (1, "beta tweet two"), (2, "gamma tweet three")]).2,
      mkEntry "2024-06-01 12:00:00" "gamma tweet three" =
        mkEntry "2024-06-01 12:00:00" t :=
  (C7_archive_only_posted (fun i _ => !(i == 1))
      [(0, "alpha tweet one"), (1, "beta tweet two"), (2, "gamma tweet three")]
      [] "2024-06-01 12:00:00").2.2
    (mkEntry "2024-06-01 12:00:00" "gamma tweet three") (by decide)

/-- C9 (counterexample to behavioral equivalence): on the 19-character
tweet `"aaaa bbbb cccc dddd"` against a corpus holding exactly the same
text, `check_tweet_uniqueness` classifies it a DUPLICATE (returns
`false`: identical first four words) while `is_similar_to_existing`
classifies it NOT a duplicate (returns `false`: normalized text shorter
than 20 characters is skipped), so the two classifiers are not equivalent
up to polarity. -/
theorem C9_counterexample :
    checkTweetUniqueness "aaaa bbbb cccc dddd" ["aaaa bbbb cccc dddd"] ((7:ℚ)/10) = false ∧
    isSimilarToExisting "aaaa bbbb cccc dddd" ["aaaa bbbb cccc dddd"] ((7:ℚ)/10) = false := by
  constructor <;> decide


/-- C1 (counterexample to the claim as stated): at base threshold `0.4`
the candidate is classified duplicate via the combined-score branch
(`full = 0.5 < 0.9`, `beginning = 0.5 ∈ [0.5, 0.9)`, `word = 0.25 < 0.8`,
`combined = 0.45 ≥ 0.4`), yet at the HIGHER threshold `0.7` the same
candidate is classified NOT a duplicate — raising the threshold loses
this duplicate instead of keeping it. -/
theorem C1_counterexample :
    isSimilarToExisting "aaaa bbbb cccc dddd eeee" ["aaaa bbbb xxxx yyyy zzzz"]
      ((2:ℚ)/5) = true ∧
    isSimilarToExisting "aaaa bbbb cccc dddd eeee" ["aaaa bbbb xxxx yyyy zzzz"]
      ((7:ℚ)/10) = false ∧
    fullOf (normalizeTextL "aaaa bbbb cccc dddd eeee".data)
      "aaaa bbbb xxxx yyyy zzzz" = (1:ℚ)/2 ∧
    begOf (pySplit (normalizeTextL "aaaa bbbb cccc dddd eeee".data))
      (joinSpace ((pySplit (normalizeTextL "aaaa bbbb cccc dddd eeee".data)).take 5))
      "aaaa bbbb xxxx yyyy zzzz" = (1:ℚ)/2 ∧
    wordOf (pySplit (normalizeTextL "aaaa bbbb cccc dddd eeee".data))
      "aaaa bbbb xxxx yyyy zzzz" = (1:ℚ)/4 := by
  refine ⟨?_, ?_, ?_, ?_, ?_⟩ <;> decide

/-- C1 witness: the amended (antitone) theorem applied at a concrete
input: a candidate that is a duplicate at threshold `0.7` stays a
duplicate when the threshold is lowered to `0.4`. -/
theorem C1_witness :
    isSimilarToExisting "aaaa bbbb cccc dddd eeee" ["aaaa bbbb cccc dddd eeee"]
      ((2:ℚ)/5) = true :=
  C1_threshold_antitone "aaaa bbbb cccc dddd eeee" ["aaaa bbbb cccc dddd eeee"]
    ((2:ℚ)/5) ((7:ℚ)/10) (by norm_num) (by decide)


/-- C3 (counterexample to unconditional idempotence): lowercasing
`"HTTP://example.com ..."` exposes a URL that only the second
normalization pass removes, so `normalize(normalize(x)) != normalize(x)`. -/
theorem C3_counterexample :
    normalizeText (normalizeText "HTTP://example.com extra words here") ≠
      normalizeText "HTTP://example.com extra words here" := by decide

/-- C3 witness: the amended conditional idempotence applied at a concrete
input whose normalized form is pattern-free. -/
theorem C3_witness :
    normalizeText (normalizeText "Hello World") = normalizeText "Hello World" :=
  C3_normalize_conditional_idem "Hello World" (by decide) (by decide) (by decide) (by decide)


/-- C8 witness: the score formula instantiated on a concrete
three-element pool at index 0. -/
theorem C8_witness :
    uniquenessScore ["aaaa bbbb", "cccc dddd", "eeee ffff"] 0 =
      1 - (((["aaaa bbbb", "cccc dddd", "eeee ffff"] : List String).enum.filter
            (fun p => p.1 ≠ 0)).map
          (fun p => ratioL
            (normalizeSimpleL ((["aaaa bbbb", "cccc dddd", "eeee ffff"] :
                List String).getD 0 "").data)
            (normalizeSimpleL p.2.data))).sum /
        (((["aaaa bbbb", "cccc dddd", "eeee ffff"] : List String).length - 1 : Nat) : ℚ) :=
  C8_uniqueness_ranker.1 ["aaaa bbbb", "cccc dddd", "eeee ffff"] 0
    (by norm_num) (by norm_num)

/-- C4 (counterexample to the claim as stated): a text whose normalized
form is shorter than 20 characters is appended with NO de-duplication
check at all, so appending the same `"hi there"` twice produces two
archive entries with identical payloads — the second call does create a
second (exact-)duplicate entry. -/
theorem C4_counterexample :
    appendBatch (appendBatch [] ["hi there"] "2024-01-01 00:00:00") ["hi there"]
        "2024-01-02 00:00:00" =
      [mkEntry "2024-01-01 00:00:00" "hi there",
       mkEntry "2024-01-02 00:00:00" "hi there"] := by
  decide

/-- C4 witness: the amended theorem applied to a fresh 38-character text
against an empty archive. -/
theorem C4_witness :
    (readArchive (appendBatch [] ["a completely fresh unique sample tweet"]
        "2024-01-01 00:00:00")).count "a completely fresh unique sample tweet" = 1 ∧
    appendBatch (appendBatch [] ["a completely fresh unique sample tweet"]
          "2024-01-01 00:00:00")
        ["a completely fresh unique sample tweet"] "2024-01-02 00:00:00" =
      appendBatch [] ["a completely fresh unique sample tweet"]
        "2024-01-01 00:00:00" :=
  C4_archive_append_amended [] "a completely fresh unique sample tweet"
    "2024-01-01 00:00:00" "2024-01-02 00:00:00" (by decide) (by decide)
    (fun e he => absurd he (List.not_mem_nil e)) (by decide) (by decide)
    (by decide) (by decide) (by decide)
end ConcreteChecks
